import Mathlib

/- Verification of the citation parsing and Bible-verse linking core of the
   Citiation-References repository.  The definitions below are shallow
   embeddings of the TypeScript functions in src/utils/bible-linker.ts and
   src/utils/clipboard-parser.ts; strings are modelled as List Char with
   String wrappers.  Each specific regular expression of the source is
   embedded as a dedicated recursive matcher reproducing the JS engine
   semantics (leftmost match, ordered alternation, greedy quantifiers with
   backtracking) for that expression. -/

namespace CitRef

/-! ### Character classes (JS regex semantics, ASCII inputs) -/

/-- JS word character for the \w class and word boundaries: [A-Za-z0-9_]. -/
def isWordCh (c : Char) : Bool := c.isAlphanum || c = '_'

/-- JS digit class \d. -/
def isDigitCh (c : Char) : Bool := c.isDigit

/-- ASCII letter, the [A-Za-z] class. -/
def isAsciiLetter (c : Char) : Bool := c.isAlpha

/-- The [A-Z] class. -/
def isUpperCh (c : Char) : Bool := 'A' ≤ c && c ≤ 'Z'

/-- The [a-z] class. -/
def isLowerCh (c : Char) : Bool := 'a' ≤ c && c ≤ 'z'

/-- JS whitespace class \s, restricted to its ASCII members (the inputs of
this development are ASCII). -/
def isSpaceCh (c : Char) : Bool :=
  c = ' ' || c = '\t' || c = '\n' || c = '\r' || c = '\x0b' || c = '\x0c'

/-- ASCII lowercasing, mirroring JS toLowerCase on the ASCII inputs used. -/
def toLowerCh (c : Char) : Char := c.toLower

/-! ### Basic string helper functions -/

/-- Left part of JS String.prototype.trim. -/
def trimLeft (cs : List Char) : List Char := cs.dropWhile isSpaceCh

/-- Right part of JS String.prototype.trim. -/
def trimRight (cs : List Char) : List Char := (trimLeft cs.reverse).reverse

/-- JS String.prototype.trim on char lists. -/
def jsTrim (cs : List Char) : List Char := trimRight (trimLeft cs)

/-- JS String.prototype.trim on strings. -/
def jsTrimS (s : String) : String := ⟨jsTrim s.data⟩

/-- Lowercase every character (JS toLowerCase). -/
def lowerList (cs : List Char) : List Char := cs.map toLowerCh

/-- Remove every whitespace character (JS .replace of a global \s+ with the
empty string). -/
def stripSpaces (cs : List Char) : List Char := cs.filter (fun c => !isSpaceCh c)

/-- Consume a nonempty maximal run of characters satisfying p (a greedy +
quantifier over a character class), returning the run and the rest. -/
def run1 (p : Char → Bool) (cs : List Char) : Option (List Char × List Char) :=
  let t := cs.takeWhile p
  if t.isEmpty then none else some (t, cs.dropWhile p)

/-- First Option-valued success over a list of candidates, in order (the
ordered alternation of a regex). -/
def firstSome {α β : Type} (f : α → Option β) : List α → Option β
  | [] => none
  | a :: l =>
    match f a with
    | some b => some b
    | none => firstSome f l

/-- Last element of a nonempty char list as an Option, with a default. -/
def lastOr (l : List Char) (d : Option Char) : Option Char :=
  match l.getLast? with
  | some c => some c
  | none => d

/-! ## Bible verse linker (src/utils/bible-linker.ts)

The function linkBibleVerses scans its input with the combined regex

  \b((?:[123]|I{1,3})\s*)?([A-Za-z]+)\.?\s+(\d+):(\d+)(?:\s*[-–]\s*(\d+))?\b
  |([;,(])\s*(\d+):(\d+)(?:\s*[-–]\s*(\d+))?\b

in an exec loop, carrying lastBookCode across matches.  (The source also
computes an intermediate processedText by a first replace pass over the same
verse regex; that intermediate value is never read afterwards — the returned
string is rebuilt from the original text inside the combined-regex loop — so
only the loop is modelled.) -/

/-- Modelled from the spec: the static book-name → Logos book-code table
BIBLE_BOOKS lives in src/constants/bible-books.ts, which is absent from the
provided sources (only its import in bible-linker.ts and the tests that
exercise it are present).  The spec calls it "a fixed external table";
the entries below are the ones pinned down by the spec and the repository
tests (deut → Dt, gen → Ge, ex → Ex, prov → Pr, jn → Jn, 1jn → 1Jn,
2ki → 2Ki, ps → Ps, mt → Mt, lk → Lk, ro → Ro), keyed by the lowercased,
space-stripped book name. -/
def BIBLE_BOOKS : List (List Char × List Char) :=
  [ ("genesis".data, "Ge".data), ("gen".data, "Ge".data), ("ge".data, "Ge".data),
    ("exodus".data, "Ex".data), ("ex".data, "Ex".data),
    ("deuteronomy".data, "Dt".data), ("deut".data, "Dt".data), ("dt".data, "Dt".data),
    ("2kings".data, "2Ki".data), ("2ki".data, "2Ki".data),
    ("psalm".data, "Ps".data), ("psalms".data, "Ps".data), ("ps".data, "Ps".data),
    ("proverbs".data, "Pr".data), ("prov".data, "Pr".data), ("pr".data, "Pr".data),
    ("isaiah".data, "Is".data),
    ("matthew".data, "Mt".data), ("matt".data, "Mt".data), ("mt".data, "Mt".data),
    ("luke".data, "Lk".data), ("lk".data, "Lk".data),
    ("john".data, "Jn".data), ("jn".data, "Jn".data),
    ("romans".data, "Ro".data), ("rom".data, "Ro".data), ("ro".data, "Ro".data),
    ("1john".data, "1Jn".data), ("1jn".data, "1Jn".data) ]

/-- Modelled from the spec: the static translation-name → Logos version-code
table VERSION_MAPPING, also from the absent src/constants/bible-books.ts.
Entries pinned down by the spec and tests: nasb → nasb95, niv → niv2011,
lsb → lgcystndrdbblsb, esv → esv; unknown translations fall through to the
input (e.g. kjv → kjv). -/
def VERSION_MAPPING : List (List Char × List Char) :=
  [ ("esv".data, "esv".data), ("nasb".data, "nasb95".data),
    ("niv".data, "niv2011".data), ("lsb".data, "lgcystndrdbblsb".data) ]

def lookupBook (k : List Char) : Option (List Char) := BIBLE_BOOKS.lookup k

def lookupVersion (k : List Char) : Option (List Char) := VERSION_MAPPING.lookup k

/-- The sequential normalized-book rewrites
.replace(/^iii/, '3').replace(/^ii/, '2').replace(/^i/, '1') of the source,
applied to the lowercased key (so only one of the three can fire). -/
def replaceRoman (cs : List Char) : List Char :=
  match cs with
  | 'i' :: 'i' :: 'i' :: r => '3' :: r
  | 'i' :: 'i' :: r => '2' :: r
  | 'i' :: r => '1' :: r
  | _ => cs

/-- normalizedBook of the source: ((prefix || '') + book).toLowerCase()
.replace(/\s+/g, '') followed by the roman-numeral prefix rewrites. -/
def normalizeBookKey (pfx book : List Char) : List Char :=
  replaceRoman (stripSpaces (lowerList (pfx ++ book)))

/-- A match of the full-reference alternative (groups 1-5). -/
structure FullRef where
  raw : List Char
  pfx : List Char
  book : List Char
  chapter : List Char
  verse : List Char
  endV : Option (List Char)
  deriving Repr, DecidableEq

/-- A match of the sequential alternative (groups 6-9). -/
structure SeqRef where
  sep : Char
  raw : List Char
  chapter : List Char
  verse : List Char
  endV : Option (List Char)
  deriving Repr, DecidableEq

/-- Word boundary \b between the match and what follows: end of input or a
non-word character. -/
def wordBoundaryAfter (cs : List Char) : Bool :=
  match cs with
  | [] => true
  | c :: _ => !isWordCh c

/-- The optional verse-range suffix (?:\s*[-–]\s*(\d+))? followed by the
closing \b, with the regex backtracking behaviour: the variant taking the
range is preferred; if its trailing boundary fails the engine falls back to
the rangeless variant (shortening the greedy digit runs can never help since
each split point sits between two word characters).  Returns the captured end
verse, the raw text consumed by the suffix, and the rest. -/
def rangeAndBoundary (cs : List Char) : Option (Option (List Char) × List Char × List Char) :=
  let noRange : Option (Option (List Char) × List Char × List Char) :=
    if wordBoundaryAfter cs then some (none, [], cs) else none
  let sp1 := cs.takeWhile isSpaceCh
  let r1 := cs.dropWhile isSpaceCh
  match r1 with
  | d :: r2 =>
    if d = '-' || d = '–' then
      let sp2 := r2.takeWhile isSpaceCh
      let r3 := r2.dropWhile isSpaceCh
      match run1 isDigitCh r3 with
      | some (e, r4) =>
        if wordBoundaryAfter r4 then some (some e, sp1 ++ d :: (sp2 ++ e), r4)
        else noRange
      | none => noRange
    else noRange
  | [] => noRange

/-- The optional literal dot \.? after the book letters: the consumed text
and the rest. -/
def dotSplit (r1 : List Char) : List Char × List Char :=
  match r1 with
  | '.' :: t => (['.'], t)
  | _ => ([], r1)

/-- The chapter:verse part (\d+):(\d+) with the range suffix and closing
boundary; r3 is positioned at the chapter digits. -/
def chapterVerseAt (r3 : List Char) : Option (List Char × List Char × Option (List Char) × List Char × List Char) :=
  match run1 isDigitCh r3 with
  | none => none
  | some (ch, r4) =>
    match r4 with
    | ':' :: r5 =>
      match run1 isDigitCh r5 with
      | none => none
      | some (vs, r6) =>
        match rangeAndBoundary r6 with
        | none => none
        | some (endV, rawR, rest) => some (ch, vs, endV, rawR, rest)
    | _ => none

/-- The tail of the full-reference alternative after an already-consumed
prefix capture: \s* was consumed by the caller together with the prefix, so
this parses ([A-Za-z]+)\.?\s+(\d+):(\d+) and the range suffix.  pfxRaw is
the text consumed so far (prefix literal and its trailing spaces). -/
def fullRefCore (pfxRaw : List Char) (r0 : List Char) : Option (FullRef × List Char) :=
  match run1 isAsciiLetter r0 with
  | none => none
  | some (bk, r1) =>
    match run1 isSpaceCh (dotSplit r1).2 with
    | none => none
    | some (sp2, r3) =>
      match chapterVerseAt r3 with
      | none => none
      | some (ch, vs, endV, rawR, rest) =>
        some ({ raw := pfxRaw ++ bk ++ (dotSplit r1).1 ++ sp2 ++ ch ++ ':' :: (vs ++ rawR),
                pfx := pfxRaw, book := bk, chapter := ch, verse := vs,
                endV := endV }, rest)

/-- Whether the head is a match of the digit class [123] (the first
alternative of the optional prefix group). -/
def digitCandCount (cs : List Char) : Nat :=
  match cs with
  | c :: _ => if c = '1' || c = '2' || c = '3' then 1 else 0
  | [] => 0

/-- The length of the greedy I{1,3} match at the head (0 when none). -/
def romanCandCount (cs : List Char) : Nat :=
  match cs with
  | 'I' :: 'I' :: 'I' :: _ => 3
  | 'I' :: 'I' :: _ => 2
  | 'I' :: _ => 1
  | _ => 0

/-- The ordered candidates for the optional prefix group (?:[123]|I{1,3})?:
the single-character digit class, then the greedy roman alternatives
(longest first), then the empty prefix.  Each candidate is the consumed
literal and the rest of the input. -/
def fullRefCands (cs : List Char) : List (List Char × List Char) :=
  (if digitCandCount cs = 1 then [(cs.take 1, cs.drop 1)] else []) ++
  ((List.range (romanCandCount cs)).map
    (fun i => (cs.take (romanCandCount cs - i), cs.drop (romanCandCount cs - i)))) ++
  [([], cs)]

/-- Try the full-reference alternative at the current position (the leading
\b is checked by the scanner).  For a nonempty prefix candidate, the \s* of
the capture group is consumed after the literal; for the empty candidate the
book letters must start immediately (no \s* precedes group 2). -/
def matchFullRefAt (cs : List Char) : Option (FullRef × List Char) :=
  firstSome
    (fun pr =>
      if pr.1.isEmpty then fullRefCore [] pr.2
      else
        fullRefCore (pr.1 ++ pr.2.takeWhile isSpaceCh) (pr.2.dropWhile isSpaceCh))
    (fullRefCands cs)

/-- Try the sequential alternative ([;,(])\s*(\d+):(\d+)(?:\s*[-–]\s*(\d+))?\b
at the current position. -/
def matchSeqAt (cs : List Char) : Option (SeqRef × List Char) :=
  match cs with
  | c :: r =>
    if c = ';' || c = ',' || c = '(' then
      match chapterVerseAt (r.dropWhile isSpaceCh) with
      | some (ch, vs, endV, rawR, rest) =>
        some ({ sep := c, raw := c :: (r.takeWhile isSpaceCh ++ ch ++ ':' :: (vs ++ rawR)),
                chapter := ch, verse := vs, endV := endV }, rest)
      | none => none
    else none
  | [] => none

/-- A rendered markdown link [disp](https://ref.ly/{code}{chapter}.{verse}
[-{endVerse}];{version}). -/
def refLyLink (disp code ch vs : List Char) (endV : Option (List Char))
    (ver : List Char) : List Char :=
  '[' :: disp ++ ']' :: '(' :: ("https://ref.ly/".data ++ code ++ ch ++ '.' :: vs ++
    (match endV with
     | some e => '-' :: e
     | none => []) ++ ';' :: ver ++ [')'])

/-- Handling of a full-reference match: resolve the normalized book in the
table; emit a link and set lastBookCode on success, emit the text unchanged
and clear lastBookCode on failure. -/
def emitFull (st : Option (List Char)) (ver : List Char) (fr : FullRef) :
    List Char × Option (List Char) :=
  match lookupBook (normalizeBookKey fr.pfx fr.book) with
  | some code => (refLyLink fr.raw code fr.chapter fr.verse fr.endV ver, some code)
  | none => (fr.raw, none)

/-- Handling of a sequential match: linked only when a lastBookCode is in
scope (which it leaves unchanged); otherwise the matched text passes through
unchanged. -/
def emitSeq (st : Option (List Char)) (ver : List Char) (sr : SeqRef) :
    List Char × Option (List Char) :=
  match st with
  | some code =>
    (sr.sep :: ' ' :: refLyLink (jsTrim (sr.raw.drop 1)) code sr.chapter sr.verse sr.endV ver,
     some code)
  | none => (sr.raw, none)

/-- The exec loop over the combined regex: at each position try the
full-reference alternative (its leading \b needs the previous character to
be absent or non-word), then the sequential alternative; on a match emit the
replacement and continue after it, otherwise copy one character.  fuel bounds
the recursion by the input length (every step consumes at least one
character). -/
def linkScan : Nat → List Char → Option (List Char) → Option Char → List Char → List Char
  | 0, _, _, _, cs => cs
  | Nat.succ fuel, ver, st, prev, cs =>
    match cs with
    | [] => []
    | c :: rest =>
      let bOk : Bool :=
        match prev with
        | none => true
        | some p => !isWordCh p
      match (if bOk then matchFullRefAt cs else none) with
      | some (fr, rest1) =>
        let os := emitFull st ver fr
        os.1 ++ linkScan fuel ver os.2 (lastOr fr.raw prev) rest1
      | none =>
        match matchSeqAt cs with
        | some (sr, rest1) =>
          let os := emitSeq st ver sr
          os.1 ++ linkScan fuel ver os.2 (lastOr sr.raw prev) rest1
        | none => c :: linkScan fuel ver st (some c) rest

/-- linkBibleVerses of src/utils/bible-linker.ts; logosVersion is the
VERSION_MAPPING lookup of the lowercased version with fallthrough to the
input version code. -/
def linkBibleVerses (text version : String) : String :=
  ⟨linkScan text.data.length ((lookupVersion (lowerList version.data)).getD version.data)
    none none text.data⟩

/-- getLogosVersionCode of src/utils/bible-linker.ts. -/
def getLogosVersionCode (version : String) : String :=
  ⟨(lookupVersion (lowerList version.data)).getD version.data⟩

/-! ### Lemmas: the linker is inert on digit-free text -/

lemma all_of_sublist {p : Char → Bool} {l₁ l₂ : List Char} (hs : List.Sublist l₁ l₂)
    (h : l₂.all p = true) : l₁.all p = true := by
  rw [List.all_eq_true] at h ⊢
  exact fun x hx => h x (hs.subset hx)

lemma run1_digit_none {cs : List Char} (h : cs.all (fun c => !isDigitCh c) = true) :
    run1 isDigitCh cs = none := by
  cases cs with
  | nil => rfl
  | cons c t =>
    have hc : isDigitCh c = false := by
      rw [List.all_cons, Bool.and_eq_true] at h
      simpa using h.1
    simp [run1, List.takeWhile_cons, hc]

lemma run1_eq_some {p : Char → Bool} {cs a b : List Char} (h : run1 p cs = some (a, b)) :
    a = cs.takeWhile p ∧ b = cs.dropWhile p := by
  unfold run1 at h
  by_cases he : (cs.takeWhile p).isEmpty
  · simp [he] at h
  · simp only [he, if_false, Bool.false_eq_true, Option.some.injEq, Prod.mk.injEq] at h
    exact ⟨h.1.symm, h.2.symm⟩

lemma firstSome_eq_none {α β : Type} {f : α → Option β} {l : List α}
    (h : ∀ a ∈ l, f a = none) : firstSome f l = none := by
  induction l with
  | nil => rfl
  | cons a t ih =>
    have ha := h a (List.mem_cons_self a t)
    simp only [firstSome, ha]
    exact ih fun x hx => h x (List.mem_cons_of_mem a hx)

lemma dotSplit_sublist (r1 : List Char) : List.Sublist (dotSplit r1).2 r1 := by
  unfold dotSplit
  split
  · exact List.sublist_cons_self _ _
  · exact List.Sublist.refl _

lemma chapterVerseAt_digit_free {r3 : List Char}
    (h : r3.all (fun c => !isDigitCh c) = true) : chapterVerseAt r3 = none := by
  unfold chapterVerseAt
  rw [run1_digit_none h]

lemma fullRefCore_digit_free {pfxRaw r0 : List Char}
    (h : r0.all (fun c => !isDigitCh c) = true) : fullRefCore pfxRaw r0 = none := by
  unfold fullRefCore
  cases hl : run1 isAsciiLetter r0 with
  | none => rfl
  | some pr =>
    obtain ⟨bk, r1⟩ := pr
    have hr1 : r1.all (fun c => !isDigitCh c) = true := by
      rw [(run1_eq_some hl).2]
      exact all_of_sublist (List.dropWhile_sublist _) h
    cases hsp : run1 isSpaceCh (dotSplit r1).2 with
    | none => simp only [hsp]
    | some pr2 =>
      obtain ⟨sp2, r3⟩ := pr2
      have hr3 : r3.all (fun c => !isDigitCh c) = true := by
        rw [(run1_eq_some hsp).2]
        exact all_of_sublist (List.dropWhile_sublist _)
          (all_of_sublist (dotSplit_sublist r1) hr1)
      simp only [hsp, chapterVerseAt_digit_free hr3]

lemma fullRefCands_suffix (cs : List Char) :
    ∀ pr ∈ fullRefCands cs, List.IsSuffix pr.2 cs := by
  intro pr hpr
  unfold fullRefCands at hpr
  rcases List.mem_append.1 hpr with h | h
  · rcases List.mem_append.1 h with h | h
    · split at h
      · rcases List.mem_singleton.1 h with rfl
        exact List.drop_suffix 1 cs
      · exact absurd h (List.not_mem_nil _)
    · rcases List.mem_map.1 h with ⟨i, _, rfl⟩
      exact List.drop_suffix _ cs
  · rcases List.mem_singleton.1 h with rfl
    exact List.suffix_refl cs

lemma matchFullRefAt_digit_free {cs : List Char}
    (h : cs.all (fun c => !isDigitCh c) = true) : matchFullRefAt cs = none := by
  unfold matchFullRefAt
  apply firstSome_eq_none
  intro pr hpr
  have hsuf : List.IsSuffix pr.2 cs := fullRefCands_suffix cs pr hpr
  have h2 : pr.2.all (fun c => !isDigitCh c) = true := all_of_sublist hsuf.sublist h
  by_cases he : pr.1.isEmpty
  · simp only [he, if_true]
    exact fullRefCore_digit_free h2
  · simp only [he, if_false, Bool.false_eq_true]
    exact fullRefCore_digit_free
      (all_of_sublist (List.dropWhile_sublist _) h2)

lemma matchSeqAt_digit_free {cs : List Char}
    (h : cs.all (fun c => !isDigitCh c) = true) : matchSeqAt cs = none := by
  cases cs with
  | nil => rfl
  | cons c r =>
    rw [List.all_cons, Bool.and_eq_true] at h
    have hsub : List.Sublist (r.dropWhile isSpaceCh) r := List.dropWhile_sublist _
    have hcv := chapterVerseAt_digit_free (all_of_sublist hsub h.2)
    simp [matchSeqAt, hcv]

lemma linkScan_digit_free (fuel : Nat) (ver : List Char) :
    ∀ (st : Option (List Char)) (prev : Option Char) (cs : List Char),
      cs.all (fun c => !isDigitCh c) = true → linkScan fuel ver st prev cs = cs := by
  induction fuel with
  | zero => intro st prev cs _; rfl
  | succ n ih =>
    intro st prev cs h
    cases cs with
    | nil => rfl
    | cons c rest =>
      have hrest : rest.all (fun c => !isDigitCh c) = true := by
        rw [List.all_cons, Bool.and_eq_true] at h; exact h.2
      simp only [linkScan, matchFullRefAt_digit_free h, matchSeqAt_digit_free h, ite_self]
      exact congrArg (c :: ·) (ih st (some c) rest hrest)

/-! ### Claims about the Bible verse linker -/

/-- C1: linkBibleVerses on "Deut. 19:12; 21:1-9" with version "esv" emits
the markdown link [Deut. 19:12](https://ref.ly/Dt19.12;esv) for the full
reference and [21:1-9](https://ref.ly/Dt21.1-9;esv) for the subsequent
semicolon-separated chapter:verse reference (reusing the carried book code
Dt); the whole output is exactly those two links joined by the separator,
each following the fixed URL form
https://ref.ly/{BookCode}{chapter}.{verse}[-{endVerse}];{versionCode}. -/
theorem linkBibleVerses_deut_sequential :
    linkBibleVerses "Deut. 19:12; 21:1-9" "esv" =
      "[Deut. 19:12](https://ref.ly/Dt19.12;esv); [21:1-9](https://ref.ly/Dt21.1-9;esv)" ∧
    List.IsInfix "[Deut. 19:12](https://ref.ly/Dt19.12;esv)".data
      (linkBibleVerses "Deut. 19:12; 21:1-9" "esv").data ∧
    List.IsInfix "[21:1-9](https://ref.ly/Dt21.1-9;esv)".data
      (linkBibleVerses "Deut. 19:12; 21:1-9" "esv").data :=
  ⟨by rfl, ⟨[], "; [21:1-9](https://ref.ly/Dt21.1-9;esv)".data, by rfl⟩,
    ⟨"[Deut. 19:12](https://ref.ly/Dt19.12;esv); ".data, [], by rfl⟩⟩

/-- C2: the scan carries lastBookCode starting from null: a sequential
chapter:verse token without a book name is emitted unchanged (never linked)
while no book code is in scope and never changes the carried state; after a
full-reference token the carried state is exactly the book-table lookup of
its normalized book (set on resolution, reset to null on failure); and
concretely linkBibleVerses("The meeting is at 10:30.", "esv") returns its
input unchanged. -/
theorem linkBibleVerses_state_discipline :
    (∀ t v : String, linkBibleVerses t v =
      ⟨linkScan t.data.length ((lookupVersion (lowerList v.data)).getD v.data)
        none none t.data⟩) ∧
    (∀ (ver : List Char) (sr : SeqRef), emitSeq none ver sr = (sr.raw, none)) ∧
    (∀ (st : Option (List Char)) (ver : List Char) (sr : SeqRef),
      (emitSeq st ver sr).2 = st) ∧
    (∀ (st : Option (List Char)) (ver : List Char) (fr : FullRef),
      (emitFull st ver fr).2 = lookupBook (normalizeBookKey fr.pfx fr.book)) ∧
    linkBibleVerses "The meeting is at 10:30." "esv" = "The meeting is at 10:30." := by
  refine ⟨fun t v => rfl, fun ver sr => rfl, ?_, ?_, by rfl⟩
  · intro st ver sr
    cases st <;> rfl
  · intro st ver fr
    unfold emitFull
    cases h : lookupBook (normalizeBookKey fr.pfx fr.book) <;> simp [h]

/-- C10: linkBibleVerses is the identity on digit-free text — every
alternative of the combined scanning regex requires a chapter, verse or
verse-range number, so on input without any decimal digit no token matches
and the text is copied through verbatim, for every version string. -/
theorem linkBibleVerses_digit_free_identity (text version : String)
    (h : text.data.all (fun c => !isDigitCh c) = true) :
    linkBibleVerses text version = text := by
  unfold linkBibleVerses
  rw [linkScan_digit_free _ _ _ _ _ h]

/-- Witness for C10 at a concrete digit-free input. -/
theorem linkBibleVerses_digit_free_identity_witness :
    ("See the Gospel of John, dear reader.".data.all (fun c => !isDigitCh c) = true) ∧
    linkBibleVerses "See the Gospel of John, dear reader." "esv" =
      "See the Gospel of John, dear reader." :=
  ⟨by decide,
    linkBibleVerses_digit_free_identity "See the Gospel of John, dear reader." "esv"
      (by decide)⟩

/-! ## Citation format detector (src/utils/clipboard-parser.ts,
detectCitationFormat)

Each regular expression used by the detector is embedded as a Bool tester.
The detector only calls .test() on these expressions, so only language
membership matters; each tester decides whether a match exists, searching
the candidate start positions left to right. -/

/-- CitationFormat of src/types.ts. -/
inductive CitationFormat where
  | auto
  | bibtex
  | mla
  | apa
  | chicago
  deriving Repr, DecidableEq

/-- JS line terminators excluded by the . metacharacter. -/
def isNewlineCh (c : Char) : Bool := c = '\n' || c = '\r'

/-- Does some suffix (scan position) satisfy f. -/
def anyPos (f : List Char → Bool) : List Char → Bool
  | [] => f []
  | c :: r => f (c :: r) || anyPos f r

/-- @\w+\{ at the current position. -/
def atWordBrace (cs : List Char) : Bool :=
  match cs with
  | '@' :: r =>
    !(r.takeWhile isWordCh).isEmpty &&
    (match r.dropWhile isWordCh with
     | '{' :: _ => true
     | _ => false)
  | _ => false

/-- The test /\s@\w+\{/ (an @-entry preceded by whitespace anywhere). -/
def containsSpaceAtBrace : List Char → Bool
  | [] => false
  | c :: r => (isSpaceCh c && atWordBrace r) || containsSpaceAtBrace r

/-- \[[*_][^\]]+[*_]\]\([^)]+\) at the current position (a Logos markdown
link with an italicized title). -/
def mdLinkTitleAt (cs : List Char) : Bool :=
  match cs with
  | '[' :: d :: r =>
    (d = '*' || d = '_') &&
    (let content := r.takeWhile (· ≠ ']')
     decide (content.length ≥ 2) &&
     (match content.getLast? with
      | some e => e = '*' || e = '_'
      | none => false) &&
     (match r.dropWhile (· ≠ ']') with
      | ']' :: '(' :: r2 =>
        !(r2.takeWhile (· ≠ ')')).isEmpty &&
        (match r2.dropWhile (· ≠ ')') with
         | ')' :: _ => true
         | _ => false)
      | _ => false))
  | _ => false

/-- Exactly four digit characters at the head. -/
def fourDigitsAt (cs : List Char) : Option (List Char × List Char) :=
  match cs with
  | a :: b :: c :: d :: r =>
    if isDigitCh a && isDigitCh b && isDigitCh c && isDigitCh d then
      some ([a, b, c, d], r)
    else none
  | _ => none

/-- The tail :\s*[^,)]+,\s*\d{4}\) after a chosen colon inside the
parenthetical (\s*[^,)]+ collapses to one nonempty run without ',' or ')',
since whitespace belongs to that class). -/
def chicagoColonTail (r : List Char) : Bool :=
  !(r.takeWhile (fun c => !(c = ',' || c = ')'))).isEmpty &&
  (match r.dropWhile (fun c => !(c = ',' || c = ')')) with
   | ',' :: r2 =>
     (match fourDigitsAt (r2.dropWhile isSpaceCh) with
      | some (_, ')' :: _) => true
      | _ => false)
   | _ => false)

/-- Scan for the colon of \([^)]*:\s*[^,)]+,\s*\d{4}\): every character
before the chosen colon must differ from ')', and the colon may also be
part of that prefix, so scanning continues past it. -/
def chicagoParenTailAt : List Char → Bool
  | ':' :: r => chicagoColonTail r || chicagoParenTailAt r
  | ')' :: _ => false
  | _ :: r => chicagoParenTailAt r
  | [] => false

/-- \([^)]*:\s*[^,)]+,\s*\d{4}\) at the current position (Chicago
markdown-link parenthetical). -/
def chicagoMdAt (cs : List Char) : Bool :=
  match cs with
  | '(' :: r => chicagoParenTailAt r
  | _ => false

/-- ,\s*\d{4}\)\.$ at the current position (Chicago markdown-link
alternative: ends in ", YYYY).". -/
def chicagoMdEndAt (cs : List Char) : Bool :=
  match cs with
  | ',' :: r =>
    (match fourDigitsAt (r.dropWhile isSpaceCh) with
     | some (_, ')' :: '.' :: rest) => rest.isEmpty
     | _ => false)
  | _ => false

/-- \]\([^)]+\)\.\s+[^,]+,\s*\d{4}\.?\s*$ at the current position (MLA
markdown-link: ends with "](url). Publisher, YYYY."). -/
def mlaMdAt (cs : List Char) : Bool :=
  match cs with
  | ']' :: '(' :: r =>
    !(r.takeWhile (· ≠ ')')).isEmpty &&
    (match r.dropWhile (· ≠ ')') with
     | ')' :: '.' :: r2 =>
       (match r2 with
        | s :: r3 =>
          isSpaceCh s &&
          !(r3.takeWhile (· ≠ ',')).isEmpty &&
          (match r3.dropWhile (· ≠ ',') with
           | ',' :: r4 =>
             (match fourDigitsAt (r4.dropWhile isSpaceCh) with
              | some (_, '.' :: r6) => (r6.dropWhile isSpaceCh).isEmpty
              | some (_, r6) => (r6.dropWhile isSpaceCh).isEmpty
              | none => false)
           | _ => false)
        | [] => false)
     | _ => false)
  | _ => false

/-- \(\d{4}\)\.\s*\[ at the current position (APA markdown-link). -/
def apaMdAt (cs : List Char) : Bool :=
  match cs with
  | '(' :: r =>
    (match fourDigitsAt r with
     | some (_, ')' :: '.' :: r2) =>
       (match r2.dropWhile isSpaceCh with
        | '[' :: _ => true
        | _ => false)
     | _ => false)
  | _ => false

/-- The optional middle initial [A-Z]?\. with its backtracking: either an
uppercase letter followed by a period, or a bare period. -/
def apaOptInitial : List Char → Option (List Char)
  | u3 :: '.' :: r5 =>
    if isUpperCh u3 then some r5
    else if u3 = '.' then some ('.' :: r5)
    else none
  | '.' :: r6 => some r6
  | _ => none

/-- [A-Z][a-z]+,\s+[A-Z]\.\s*[A-Z]?\.\s*\(\d{4}\) at the current position
(plain-text APA: Name, I. (YYYY)). -/
def apaPlainAt (cs : List Char) : Bool :=
  match cs with
  | u :: r =>
    isUpperCh u &&
    !(r.takeWhile isLowerCh).isEmpty &&
    (match r.dropWhile isLowerCh with
     | ',' :: r2 =>
       (match run1 isSpaceCh r2 with
        | some (_, u2 :: '.' :: r3) =>
          isUpperCh u2 &&
          (match apaOptInitial (r3.dropWhile isSpaceCh) with
           | some r5 =>
             (match (r5.dropWhile isSpaceCh) with
              | '(' :: r6 =>
                (match fourDigitsAt r6 with
                 | some (_, ')' :: _) => true
                 | _ => false)
              | _ => false)
           | none => false)
        | _ => false)
     | _ => false)
  | [] => false

/-- The shared head [A-Z][a-z]+,?\s+[A-Z] of the plain-text Chicago and MLA
patterns; returns the rest after the second uppercase letter. -/
def authorHeadAt (cs : List Char) : Option (List Char) :=
  match cs with
  | u :: r =>
    if isUpperCh u then
      if (r.takeWhile isLowerCh).isEmpty then none
      else
        let r2 := r.dropWhile isLowerCh
        let r3 := match r2 with
          | ',' :: t => t
          | _ => r2
        match run1 isSpaceCh r3 with
        | some (_, u2 :: r4) => if isUpperCh u2 then some r4 else none
        | _ => none
    else none
  | [] => none

/-- A lazy .*?\.\s+ stage: scan for a literal period whose preceding
characters are all non-newline (the . metacharacter), require whitespace
after it, and continue with f; every candidate period is tried. -/
def anyDotSpace (f : List Char → Bool) : List Char → Bool
  | [] => false
  | '.' :: r =>
    (match run1 isSpaceCh r with
     | some (_, r2) => f r2
     | none => false) || anyDotSpace f r
  | c :: r => if isNewlineCh c then false else anyDotSpace f r

/-- A lazy .*?: stage: scan for a colon with a newline-free prefix. -/
def anyColonTail (f : List Char → Bool) : List Char → Bool
  | [] => false
  | ':' :: r => f r || anyColonTail f r
  | c :: r => if isNewlineCh c then false else anyColonTail f r

/-- The search for the year of :\s*[^.]+,?\s*\d{4}: a four-digit run whose
preceding segment (accumulated reversed in acc) is nonempty and free of
periods. This is exactly the language of \s*[^.]+,?\s* : whitespace and the
comma belong to the class [^.] themselves, so for any nonempty period-free
segment the decomposition with empty \s* parts and [^.]+ the whole segment
succeeds, and conversely every decomposition yields a nonempty period-free
segment (\s and , never match a period). -/
def chicagoYearScan : List Char → List Char → Bool
  | [], _ => false
  | c :: r, acc =>
    (match fourDigitsAt (c :: r) with
     | some _ => !acc.isEmpty && acc.all (· ≠ '.')
     | none => false) || chicagoYearScan r (c :: acc)

/-- The tail \s*[^.]+,?\s*\d{4} after the colon. -/
def chicagoYearTail (r : List Char) : Bool :=
  chicagoYearScan r []

/-- [A-Z][a-z]+,?\s+[A-Z].*?\.\s+.*?\.\s+.*?:\s*[^.]+,?\s*\d{4} at the
current position (plain-text Chicago: colon before publisher then year). -/
def chicagoPlainAt (cs : List Char) : Bool :=
  match authorHeadAt cs with
  | some r => anyDotSpace (anyDotSpace (anyColonTail chicagoYearTail)) r
  | none => false

/-- The .*,\s+\d{4} tail stage of the plain-text MLA pattern: a comma with
a newline-free prefix, one or more whitespace characters, four digits. -/
def anyCommaYear : List Char → Bool
  | [] => false
  | ',' :: r =>
    (match run1 isSpaceCh r with
     | some (_, r2) => (fourDigitsAt r2).isSome
     | none => false) || anyCommaYear r
  | c :: r => if isNewlineCh c then false else anyCommaYear r

/-- [A-Z][a-z]+,?\s+[A-Z].*?\.\s+.*?\.\s+.*,\s+\d{4} at the current
position (plain-text MLA). -/
def mlaPlainAt (cs : List Char) : Bool :=
  match authorHeadAt cs with
  | some r => anyDotSpace (anyDotSpace anyCommaYear) r
  | none => false

/-- detectCitationFormat of src/utils/clipboard-parser.ts: ordered
first-match-wins rules over the trimmed text; BibTeX marker first, then the
markdown-link Chicago / MLA / APA patterns (only consulted when a markdown
link is present, falling through to the plain rules otherwise), then the
plain-text APA / Chicago / MLA patterns, defaulting to bibtex. -/
def detectFormatCore (trimmed : List Char) : CitationFormat :=
  if atWordBrace trimmed || containsSpaceAtBrace trimmed then .bibtex
  else if anyPos mdLinkTitleAt trimmed &&
      (anyPos chicagoMdAt trimmed || anyPos chicagoMdEndAt trimmed) then .chicago
  else if anyPos mdLinkTitleAt trimmed && anyPos mlaMdAt trimmed then .mla
  else if anyPos mdLinkTitleAt trimmed && anyPos apaMdAt trimmed then .apa
  else if anyPos apaPlainAt trimmed then .apa
  else if anyPos chicagoPlainAt trimmed then .chicago
  else if anyPos mlaPlainAt trimmed then .mla
  else .bibtex

def detectCitationFormat (text : String) : CitationFormat :=
  detectFormatCore (jsTrim text.data)

/-- C5: detectCitationFormat is a total pure function that never yields the
auto placeholder — its ordered first-match-wins rules always produce one of
the four concrete formats; whenever none of its patterns matches the trimmed
input it returns bibtex; the plain-text APA scenario
"Smith, J. A. (2020). Title of work. Publisher." detects as apa; and the
plain-text Chicago rule accepts a whitespace-only publisher segment between
the colon and the year (space lies in the class of non-period characters),
so "Smith, John. Title. New York: 2020" detects as chicago. -/
theorem detectCitationFormat_rules :
    (∀ s : String, detectCitationFormat s ≠ CitationFormat.auto) ∧
    (∀ s : String,
      atWordBrace (jsTrim s.data) = false →
      containsSpaceAtBrace (jsTrim s.data) = false →
      anyPos chicagoMdAt (jsTrim s.data) = false →
      anyPos chicagoMdEndAt (jsTrim s.data) = false →
      anyPos mlaMdAt (jsTrim s.data) = false →
      anyPos apaMdAt (jsTrim s.data) = false →
      anyPos apaPlainAt (jsTrim s.data) = false →
      anyPos chicagoPlainAt (jsTrim s.data) = false →
      anyPos mlaPlainAt (jsTrim s.data) = false →
      detectCitationFormat s = CitationFormat.bibtex) ∧
    detectCitationFormat "Smith, J. A. (2020). Title of work. Publisher." =
      CitationFormat.apa ∧
    detectCitationFormat "Smith, John. Title. New York: 2020" =
      CitationFormat.chicago := by
  refine ⟨?_, ?_, by rfl, by rfl⟩
  · intro s
    unfold detectCitationFormat detectFormatCore
    split_ifs <;> decide
  · intro s h1 h2 h3 h4 h5 h6 h7 h8 h9
    unfold detectCitationFormat detectFormatCore
    simp [h1, h2, h3, h4, h5, h6, h7, h8, h9]

/-- Witness for C5 at a concrete input on which no pattern matches. -/
theorem detectCitationFormat_rules_witness :
    detectCitationFormat "just some plain words" = CitationFormat.bibtex :=
  detectCitationFormat_rules.2.1 "just some plain words" (by decide) (by decide)
    (by decide) (by decide) (by decide) (by decide) (by decide) (by decide) (by decide)

/-! ## BibTeX parsing (src/utils/clipboard-parser.ts, parseBibtex and the
cite-key utilities) -/

/-- ParsedCitation of src/types.ts. -/
structure ParsedCitation where
  format : CitationFormat
  citeKey : String
  author : Option String
  title : Option String
  cleanedTitle : Option String
  year : Option String
  pages : Option String
  publisher : Option String
  url : Option String
  rawCitation : String
  isbn : Option String
  abstract : Option String
  keywords : Option (List String)
  series : Option String
  deriving Repr, DecidableEq

/-- Generic leftmost scan: the first position whose suffix matches f. -/
def scanFor {α : Type} (f : List Char → Option α) : List Char → Option α
  | [] => f []
  | c :: r =>
    match f (c :: r) with
    | some v => some v
    | none => scanFor f r

/-- Case-insensitive literal at the head, returning the rest. -/
def stripCI : List Char → List Char → Option (List Char)
  | [], cs => some cs
  | _ :: _, [] => none
  | n :: ns, c :: cs => if toLowerCh c = toLowerCh n then stripCI ns cs else none

/-- Case-insensitive substring test. -/
def containsSeq (pat : List Char) (cs : List Char) : Bool :=
  anyPos (fun t => pat.isPrefixOf t) cs

/-- /^@\w+\{([^,]+),/: the cite-key capture of parseBibtex and
extractCiteKey. -/
def citeKeyMatch (cs : List Char) : Option (List Char) :=
  match cs with
  | '@' :: r =>
    if (r.takeWhile isWordCh).isEmpty then none
    else
      match r.dropWhile isWordCh with
      | '{' :: r2 =>
        let k := r2.takeWhile (· ≠ ',')
        if k.isEmpty then none
        else
          match r2.dropWhile (· ≠ ',') with
          | ',' :: _ => some k
          | _ => none
      | _ => none
  | _ => none

/-- A character replaced by the slug sanitizer: the [_\W] class. -/
def isSlugBreak (c : Char) : Bool := c = '_' || !isWordCh c

/-- .replace(/[_\W]+/g, '-'): each maximal run of characters from [_\W]
becomes a single hyphen.  The flag records whether the scan is inside a run
whose hyphen was already emitted. -/
def slugRunsAux : Bool → List Char → List Char
  | _, [] => []
  | inRun, c :: cs =>
    match isSlugBreak c, inRun with
    | true, true => slugRunsAux true cs
    | true, false => '-' :: slugRunsAux true cs
    | false, _ => c :: slugRunsAux false cs

def slugRuns (cs : List Char) : List Char := slugRunsAux false cs

/-- The second sanitizer replace (regex -+ global, replacement -): collapse
hyphen runs. -/
def collapseHyphensAux : Bool → List Char → List Char
  | _, [] => []
  | inRun, c :: cs =>
    match decide (c = '-'), inRun with
    | true, true => collapseHyphensAux true cs
    | true, false => '-' :: collapseHyphensAux true cs
    | false, _ => c :: collapseHyphensAux false cs

def collapseHyphens (cs : List Char) : List Char := collapseHyphensAux false cs

/-- One leading hyphen removed. -/
def dropLeadHyphen : List Char → List Char
  | '-' :: t => t
  | cs => cs

/-- .replace(/^-|-$/g, ''): one leading and one trailing hyphen removed. -/
def stripEdgeHyphens (cs : List Char) : List Char :=
  (dropLeadHyphen (dropLeadHyphen cs).reverse).reverse

/-- The cite-key sanitization chain of parseBibtex and extractCiteKey:
runs of [_\W] to hyphens, hyphen runs collapsed, one leading and one
trailing hyphen removed. -/
def sanitizeCiteKey (cs : List Char) : List Char :=
  stripEdgeHyphens (collapseHyphens (slugRuns cs))

/-- name\s*=\s*\{([^}]+)\} at the current position (case-insensitive name). -/
def braceFieldAt (name : List Char) (cs : List Char) : Option (List Char) :=
  match stripCI name cs with
  | none => none
  | some r =>
    match r.dropWhile isSpaceCh with
    | '=' :: r2 =>
      match r2.dropWhile isSpaceCh with
      | '{' :: r3 =>
        let v := r3.takeWhile (· ≠ '}')
        if v.isEmpty then none
        else
          match r3.dropWhile (· ≠ '}') with
          | '}' :: _ => some v
          | _ => none
      | _ => none
    | _ => none

/-- Leftmost match of name\s*=\s*\{([^}]+)\}. -/
def findBraceField (name : List Char) (cs : List Char) : Option (List Char) :=
  scanFor (braceFieldAt name) cs

/-- year\s*=\s*\{?(\d{4})\}?/i at the current position. -/
def yearFieldAt (cs : List Char) : Option (List Char) :=
  match stripCI "year".data cs with
  | none => none
  | some r =>
    match r.dropWhile isSpaceCh with
    | '=' :: r2 =>
      let r3 := r2.dropWhile isSpaceCh
      let r4 := match r3 with
        | '{' :: t => t
        | _ => r3
      match fourDigitsAt r4 with
      | some (y, _) => some y
      | none => none
    | _ => none

/-- \[([^\]]+)\]\(([^)]+)\) at the current position: (label, url, rest). -/
def mdAnyLinkAt (cs : List Char) : Option (List Char × List Char × List Char) :=
  match cs with
  | '[' :: r =>
    let lab := r.takeWhile (· ≠ ']')
    if lab.isEmpty then none
    else
      match r.dropWhile (· ≠ ']') with
      | ']' :: '(' :: r2 =>
        let url := r2.takeWhile (· ≠ ')')
        if url.isEmpty then none
        else
          match r2.dropWhile (· ≠ ')') with
          | ')' :: rest => some (lab, url, rest)
          | _ => none
      | _ => none
  | _ => none

/-- One match of the Logos field-wrapping pattern
\[((?:title|journal|booktitle|series)\s*=\s*\{)([^}]+)(\})\]\(([^)]+)\)
at the current position (case-insensitive): returns the first captured
group verbatim, the field value, the url and the rest. -/
def fieldLinkAt (cs : List Char) : Option (List Char × List Char × List Char × List Char) :=
  match cs with
  | '[' :: r =>
    firstSome
      (fun nm =>
        match stripCI nm r with
        | none => none
        | some r1 =>
          match r1.dropWhile isSpaceCh with
          | '=' :: r2 =>
            match r2.dropWhile isSpaceCh with
            | '{' :: r3 =>
              let v := r3.takeWhile (· ≠ '}')
              if v.isEmpty then none
              else
                match r3.dropWhile (· ≠ '}') with
                | '}' :: ']' :: '(' :: r4 =>
                  let url := r4.takeWhile (· ≠ ')')
                  if url.isEmpty then none
                  else
                    match r4.dropWhile (· ≠ ')') with
                    | ')' :: rest =>
                      some (r.take (r.length - r3.length), v, url, rest)
                    | _ => none
                | _ => none
            | _ => none
          | _ => none)
      ["title".data, "journal".data, "booktitle".data, "series".data]
  | _ => none

/-- The global preprocessing replace of parseBibtex, rewriting each wrapped
field line [field={Value}](url) into field={[Value](url)}. -/
def preprocessBibtex : Nat → List Char → List Char
  | 0, cs => cs
  | _ + 1, [] => []
  | fuel + 1, c :: r =>
    match fieldLinkAt (c :: r) with
    | some (g1, v, url, rest) =>
      g1 ++ '[' :: v ++ ']' :: '(' :: url ++ ')' :: '}' :: preprocessBibtex fuel rest
    | none => c :: preprocessBibtex fuel r

/-- field\s*=\s*\{value\}/i at the head (value matched literally but
case-insensitively, as the constructed regex carries the i flag), returning
the rest after the closing brace. -/
def fieldValueAt (nm rawv : List Char) (cs : List Char) : Option (List Char) :=
  match stripCI nm cs with
  | none => none
  | some r =>
    match r.dropWhile isSpaceCh with
    | '=' :: r2 =>
      match r2.dropWhile isSpaceCh with
      | '{' :: r3 =>
        match stripCI rawv r3 with
        | some ('}' :: rest) => some rest
        | _ => none
      | _ => none
    | _ => none

/-- The single (non-global) replace that rewrites the retained raw BibTeX
text so its title field carries the synthesized hyperlink. -/
def rewriteTitleField (nm rawv newTitle : List Char) : Nat → List Char → List Char
  | 0, cs => cs
  | _ + 1, [] => []
  | fuel + 1, c :: r =>
    match fieldValueAt nm rawv (c :: r) with
    | some rest => nm ++ '=' :: '{' :: newTitle ++ '}' :: rest
    | none => c :: rewriteTitleField nm rawv newTitle fuel r

/-- .replace(/\[([^\]]+)\]\(([^)]+)\)/g, '$1'): every markdown link
replaced by its label. -/
def stripMdLinks : Nat → List Char → List Char
  | 0, cs => cs
  | _ + 1, [] => []
  | fuel + 1, c :: r =>
    match mdAnyLinkAt (c :: r) with
    | some (lab, _, rest) => lab ++ stripMdLinks fuel rest
    | none => c :: stripMdLinks fuel r

/-- cleanedTitle: links stripped to their labels, then stray brackets
removed (.replace(/[[\]]/g, '')). -/
def cleanTitle (t : List Char) : List Char :=
  (stripMdLinks t.length t).filter (fun c => !(c = '[' || c = ']'))

/-- Split on every ';' and ',' (the keywords separator class). -/
def splitOnSepChars : List Char → List (List Char)
  | [] => [[]]
  | c :: r =>
    if c = ';' || c = ',' then [] :: splitOnSepChars r
    else
      match splitOnSepChars r with
      | h :: t => (c :: h) :: t
      | [] => [[c]]

/-- Maximal whitespace runs to single hyphens (.replace(/\s+/g, '-')). -/
def spacesToHyphens : Bool → List Char → List Char
  | _, [] => []
  | inRun, c :: cs =>
    if isSpaceCh c then
      if inRun then spacesToHyphens true cs else '-' :: spacesToHyphens true cs
    else c :: spacesToHyphens false cs

/-- The generated lastname-year fallback cite key of parseBibtex:
author.split(',')[0].trim().toLowerCase().replace(/\s+/g, '-') + '-' + year.
Note that unlike the braces-key path this applies no slug sanitization. -/
def bibtexFallbackKey (author year : List Char) : List Char :=
  spacesToHyphens false (lowerList (jsTrim (author.takeWhile (· ≠ ',')))) ++ '-' :: year

/-- The cite key taken from the braces key (sanitized), defaulting to
"unknown" when the pattern is absent. -/
def bibtexKeyOf (bib0 : List Char) : List Char :=
  match citeKeyMatch bib0 with
  | some k => sanitizeCiteKey k
  | none => sanitizeCiteKey "unknown".data

/-- The final cite key of parseBibtex: the sanitized braces key, replaced by
the generated lastname-year key exactly when it equals "unknown" and both
author and year fields are present. -/
def bibtexFinalKey (bib0 : List Char) : List Char :=
  if bibtexKeyOf bib0 = "unknown".data then
    match findBraceField "author".data bib0, scanFor yearFieldAt bib0 with
    | some a, some y => bibtexFallbackKey a y
    | _, _ => bibtexKeyOf bib0
  else bibtexKeyOf bib0

/-- The raw title value journal → booktitle → series → title (first
non-null wins). -/
def bibtexRawTitle (bib0 : List Char) : Option (List Char) :=
  match findBraceField "journal".data bib0 with
  | some v => some v
  | none =>
    match findBraceField "booktitle".data bib0 with
    | some v => some v
    | none =>
      match findBraceField "series".data bib0 with
      | some v => some v
      | none => findBraceField "title".data bib0

/-- The name of the field the title was taken from. -/
def bibtexTitleSource (bib0 : List Char) : List Char :=
  match findBraceField "journal".data bib0 with
  | some _ => "journal".data
  | none =>
    match findBraceField "booktitle".data bib0 with
    | some _ => "booktitle".data
    | none =>
      match findBraceField "series".data bib0 with
      | some _ => "series".data
      | none => "title".data

/-- The title / url / retained-raw-text triple of parseBibtex: an embedded
markdown link in the title backfills a missing url; a url field with an
unlinked title synthesizes the hyperlinked title and rewrites the
corresponding field in the retained raw text. -/
def bibtexTitleUrlRaw (bib0 : List Char) : Option (List Char) × Option (List Char) × List Char :=
  match bibtexRawTitle bib0 with
  | none => (none, findBraceField "url".data bib0, bib0)
  | some t0 =>
    match scanFor mdAnyLinkAt t0 with
    | some (_, u, _) =>
      (some t0,
        (match findBraceField "url".data bib0 with
         | some u0 => some u0
         | none => some u), bib0)
    | none =>
      match findBraceField "url".data bib0 with
      | some u =>
        if containsSeq "](".data t0 then (some t0, some u, bib0)
        else
          (some ('[' :: t0 ++ ']' :: '(' :: u ++ [')']), some u,
            rewriteTitleField (bibtexTitleSource bib0) t0
              ('[' :: t0 ++ ']' :: '(' :: u ++ [')']) bib0.length bib0)
      | none => (some t0, none, bib0)

/-- parseBibtex of src/utils/clipboard-parser.ts. -/
def parseBibtex (bibtex : String) : ParsedCitation :=
  let bib0 := preprocessBibtex bibtex.data.length bibtex.data
  let tu := bibtexTitleUrlRaw bib0
  { format := .bibtex
    citeKey := ⟨bibtexFinalKey bib0⟩
    author := (findBraceField "author".data bib0).map String.mk
    title := tu.1.map String.mk
    cleanedTitle := (tu.1.map cleanTitle).map String.mk
    year := (scanFor yearFieldAt bib0).map String.mk
    pages := (findBraceField "pages".data bib0).map String.mk
    publisher := (findBraceField "publisher".data bib0).map String.mk
    url := tu.2.1.map String.mk
    rawCitation := ⟨tu.2.2⟩
    isbn := (findBraceField "isbn".data bib0).map String.mk
    abstract := (findBraceField "abstract".data bib0).map String.mk
    keywords := (findBraceField "keywords".data bib0).map (fun v =>
      (((splitOnSepChars v).map jsTrim).filter (fun k => !k.isEmpty)).map String.mk)
    series := (findBraceField "series".data bib0).map String.mk }

/-- extractCiteKey of src/utils/clipboard-parser.ts (legacy single-field
extractor); the thrown Error is modelled as the error branch of Except. -/
def extractCiteKey (bibtex : String) : Except String String :=
  match citeKeyMatch bibtex.data with
  | none => Except.error "Could not extract cite key"
  | some k => Except.ok ⟨sanitizeCiteKey k⟩

/-! ### Lemmas: the sanitized cite key is a hyphen slug -/

/-- A character the sanitizer can emit: a word character other than
underscore, or a hyphen. -/
def goodCh (c : Char) : Bool := (isWordCh c && !(c = '_')) || c = '-'

/-- No two adjacent hyphens. -/
def noDH : List Char → Bool
  | [] => true
  | [_] => true
  | a :: b :: t => !(a = '-' && b = '-') && noDH (b :: t)

lemma noDH_cons {a : Char} {l : List Char}
    (h1 : l.head? ≠ some '-' ∨ a ≠ '-') (h2 : noDH l = true) : noDH (a :: l) = true := by
  cases l with
  | nil => rfl
  | cons b t =>
    show (!(a = '-' && b = '-') && noDH (b :: t)) = true
    rw [h2, Bool.and_true]
    rcases h1 with h | h
    · simp only [List.head?_cons, ne_eq, Option.some.injEq] at h
      simp [h]
    · simp [h]

lemma noDH_tail {a : Char} {l : List Char} (h : noDH (a :: l) = true) : noDH l = true := by
  cases l with
  | nil => rfl
  | cons b t =>
    have h2 : (!(a = '-' && b = '-') && noDH (b :: t)) = true := h
    rw [Bool.and_eq_true] at h2
    exact h2.2

lemma slugRunsAux_true_head (cs : List Char) :
    (slugRunsAux true cs).head? ≠ some '-' := by
  induction cs with
  | nil => simp [slugRunsAux]
  | cons c r ih =>
    show (slugRunsAux true (c :: r)).head? ≠ some '-'
    unfold slugRunsAux
    cases hb : isSlugBreak c with
    | true => exact ih
    | false =>
      have hc : c ≠ '-' := by
        intro hEq
        rw [hEq] at hb
        exact absurd hb (by decide)
      simpa using hc

lemma slugRunsAux_all (cs : List Char) :
    ∀ b, (slugRunsAux b cs).all goodCh = true := by
  induction cs with
  | nil => intro b; rfl
  | cons c r ih =>
    intro b
    unfold slugRunsAux
    cases hb : isSlugBreak c with
    | true =>
      cases b with
      | true => exact ih true
      | false =>
        rw [List.all_cons, ih true, Bool.and_true]
        decide
    | false =>
      have hg : goodCh c = true := by
        unfold isSlugBreak at hb
        have h2 : (c = '_' → False) ∧ isWordCh c = true := by simpa using hb
        unfold goodCh
        rw [h2.2, decide_eq_false h2.1]
        rfl
      rw [List.all_cons, hg, ih false, Bool.and_self]

lemma slugRunsAux_noDH (cs : List Char) :
    ∀ b, noDH (slugRunsAux b cs) = true := by
  induction cs with
  | nil => intro b; rfl
  | cons c r ih =>
    intro b
    unfold slugRunsAux
    cases hb : isSlugBreak c with
    | true =>
      cases b with
      | true => exact ih true
      | false => exact noDH_cons (Or.inl (slugRunsAux_true_head r)) (ih true)
    | false =>
      have hc : c ≠ '-' := by
        intro hEq
        rw [hEq] at hb
        exact absurd hb (by decide)
      exact noDH_cons (Or.inr hc) (ih false)

lemma collapseHyphensAux_true_head (cs : List Char) :
    (collapseHyphensAux true cs).head? ≠ some '-' := by
  induction cs with
  | nil => simp [collapseHyphensAux]
  | cons c r ih =>
    unfold collapseHyphensAux
    cases hb : decide (c = '-') with
    | true => exact ih
    | false => simpa using of_decide_eq_false hb

lemma collapseHyphensAux_all {cs : List Char} (h : cs.all goodCh = true) :
    ∀ b, (collapseHyphensAux b cs).all goodCh = true := by
  induction cs with
  | nil => intro b; rfl
  | cons c r ih =>
    intro b
    rw [List.all_cons, Bool.and_eq_true] at h
    unfold collapseHyphensAux
    cases hb : decide (c = '-') with
    | true =>
      cases b with
      | true => exact ih h.2 true
      | false =>
        rw [List.all_cons, ih h.2 true, Bool.and_true]
        decide
    | false =>
      rw [List.all_cons, h.1, ih h.2 false, Bool.and_self]

lemma collapseHyphensAux_noDH (cs : List Char) :
    ∀ b, noDH (collapseHyphensAux b cs) = true := by
  induction cs with
  | nil => intro b; rfl
  | cons c r ih =>
    intro b
    unfold collapseHyphensAux
    cases hb : decide (c = '-') with
    | true =>
      cases b with
      | true => exact ih true
      | false => exact noDH_cons (Or.inl (collapseHyphensAux_true_head r)) (ih true)
    | false => exact noDH_cons (Or.inr (of_decide_eq_false hb)) (ih false)

lemma noDH_iff_no_dhyph_run (l : List Char) :
    noDH l = true ↔ ¬ List.IsInfix ['-', '-'] l := by
  induction l with
  | nil =>
    constructor
    · intro _ h
      rw [List.infix_nil] at h
      cases h
    · intro _
      rfl
  | cons a t ih =>
    rw [List.infix_cons_iff]
    constructor
    · intro h hcase
      rcases hcase with hpre | hinf
      · rcases (List.cons_prefix_cons.mp hpre) with ⟨rfl, hpre2⟩
        cases t with
        | nil => exact absurd (List.IsPrefix.length_le hpre2) (by decide)
        | cons b t2 =>
          rcases List.cons_prefix_cons.mp hpre2 with ⟨rfl, _⟩
          have h2 : (!('-' = '-' && '-' = '-') && noDH ('-' :: t2)) = true := h
          simp at h2
      · exact (ih.mp (noDH_tail h)) hinf
    · intro h
      have ht : noDH t = true := ih.mpr (fun hinf => h (Or.inr hinf))
      apply noDH_cons _ ht
      by_cases ha : a = '-'
      · subst ha
        left
        intro hhd
        cases t with
        | nil => simp at hhd
        | cons b t2 =>
          simp only [List.head?_cons, Option.some.injEq] at hhd
          subst hhd
          exact h (Or.inl (List.cons_prefix_cons.mpr
            ⟨rfl, List.cons_prefix_cons.mpr ⟨rfl, List.nil_prefix⟩⟩))
      · exact Or.inr ha

lemma dropLeadHyphen_suffix (l : List Char) : List.IsSuffix (dropLeadHyphen l) l := by
  unfold dropLeadHyphen
  split
  · exact List.suffix_cons _ _
  · exact List.suffix_refl _

lemma dropLeadHyphen_of_ne {c : Char} {t : List Char} (hc : c ≠ '-') :
    dropLeadHyphen (c :: t) = c :: t := by
  unfold dropLeadHyphen
  split
  · next t2 heq =>
    injection heq with h1 _
    exact absurd h1 hc
  · rfl

lemma dropLeadHyphen_head {l : List Char} (h : noDH l = true) :
    (dropLeadHyphen l).head? ≠ some '-' := by
  cases l with
  | nil => simp [dropLeadHyphen]
  | cons c t =>
    by_cases hc : c = '-'
    · subst hc
      have hd : dropLeadHyphen ('-' :: t) = t := rfl
      rw [hd]
      cases t with
      | nil => simp
      | cons b t2 =>
        have h2 : (!('-' = '-' && b = '-') && noDH (b :: t2)) = true := h
        rw [Bool.and_eq_true] at h2
        have hbne : b ≠ '-' := by
          intro hEq
          rw [hEq] at h2
          simpa using h2.1
        simpa using hbne
    · rw [dropLeadHyphen_of_ne hc]
      simpa using hc

lemma dropLeadHyphen_getLast {l : List Char} (h : l.getLast? ≠ some '-') :
    (dropLeadHyphen l).getLast? ≠ some '-' := by
  cases l with
  | nil => simp [dropLeadHyphen]
  | cons c t =>
    by_cases hc : c = '-'
    · subst hc
      have hd : dropLeadHyphen ('-' :: t) = t := rfl
      rw [hd]
      cases t with
      | nil => simp
      | cons b t2 => rwa [List.getLast?_cons_cons] at h
    · rwa [dropLeadHyphen_of_ne hc]

lemma not_infix_of_suffix {l₁ l₂ : List Char} (hs : List.IsSuffix l₁ l₂)
    (h : ¬ List.IsInfix ['-', '-'] l₂) : ¬ List.IsInfix ['-', '-'] l₁ :=
  fun hinf => h (hinf.trans hs.isInfix)

lemma infix_reverse_hh {l : List Char} (h : List.IsInfix ['-', '-'] l.reverse) :
    List.IsInfix ['-', '-'] l := by
  have h2 := List.reverse_infix.mpr h
  rw [List.reverse_reverse] at h2
  have h3 : (['-', '-'] : List Char).reverse = ['-', '-'] := rfl
  rwa [h3] at h2

/-- The slug invariants of the edge-stripped list, given the invariants of
the collapse output. -/
lemma stripEdge_props {m : List Char} (hall : m.all goodCh = true) (hnd : noDH m = true) :
    (stripEdgeHyphens m).all goodCh = true ∧
    '_' ∉ stripEdgeHyphens m ∧
    ¬ List.IsInfix ['-', '-'] (stripEdgeHyphens m) ∧
    (stripEdgeHyphens m).head? ≠ some '-' ∧
    (stripEdgeHyphens m).getLast? ≠ some '-' := by
  have hninf : ¬ List.IsInfix ['-', '-'] m := (noDH_iff_no_dhyph_run m).mp hnd
  have hasuf : List.IsSuffix (dropLeadHyphen m) m := dropLeadHyphen_suffix m
  have hainf : ¬ List.IsInfix ['-', '-'] (dropLeadHyphen m) := not_infix_of_suffix hasuf hninf
  have hahead : (dropLeadHyphen m).head? ≠ some '-' := dropLeadHyphen_head hnd
  have haall : (dropLeadHyphen m).all goodCh = true := all_of_sublist hasuf.sublist hall
  have hbsuf : List.IsSuffix (dropLeadHyphen (dropLeadHyphen m).reverse)
      (dropLeadHyphen m).reverse := dropLeadHyphen_suffix (dropLeadHyphen m).reverse
  have hkey : stripEdgeHyphens m = (dropLeadHyphen (dropLeadHyphen m).reverse).reverse := rfl
  have hball : (dropLeadHyphen (dropLeadHyphen m).reverse).all goodCh = true :=
    all_of_sublist hbsuf.sublist (by rwa [List.all_reverse])
  have hbinf : ¬ List.IsInfix ['-', '-'] (dropLeadHyphen (dropLeadHyphen m).reverse) := by
    intro hinf
    exact hainf (infix_reverse_hh (hinf.trans hbsuf.isInfix))
  refine ⟨?_, ?_, ?_, ?_, ?_⟩
  · rw [hkey, List.all_reverse]
    exact hball
  · rw [hkey]
    intro hmem
    have hall2 : (dropLeadHyphen (dropLeadHyphen m).reverse).reverse.all goodCh = true := by
      rw [List.all_reverse]
      exact hball
    have hgood : goodCh '_' = true := List.all_eq_true.mp hall2 _ hmem
    exact absurd hgood (by decide)
  · rw [hkey]
    intro hinf
    exact hbinf (infix_reverse_hh hinf)
  · rw [hkey, List.head?_reverse]
    apply dropLeadHyphen_getLast
    rw [List.getLast?_reverse]
    exact hahead
  · rw [hkey, List.getLast?_reverse]
    apply dropLeadHyphen_head
    rw [noDH_iff_no_dhyph_run]
    intro hinf
    exact hainf (infix_reverse_hh hinf)

/-- The slug invariants of the sanitized cite key: characters are word
characters other than underscore, or hyphens; no underscore; no doubled
hyphen; no leading or trailing hyphen. -/
theorem sanitizeCiteKey_slug (k : List Char) :
    (sanitizeCiteKey k).all goodCh = true ∧
    '_' ∉ sanitizeCiteKey k ∧
    ¬ List.IsInfix ['-', '-'] (sanitizeCiteKey k) ∧
    (sanitizeCiteKey k).head? ≠ some '-' ∧
    (sanitizeCiteKey k).getLast? ≠ some '-' :=
  stripEdge_props (collapseHyphensAux_all (slugRunsAux_all k false) false)
    (collapseHyphensAux_noDH (slugRuns k) false)

/-! ### Claims about the cite keys -/

/-- C3 counterexample: parseBibtex on the bibtex text
"@book{unknown, author={J_Doe}, year={2020}}", which starts with @ and
matches @type{key,...}, yields the citeKey "j_doe-2020" — it contains an
underscore (the lastname-year fallback applies no slug sanitization), so
citeKey is not always a slug over [a-z0-9-]. -/
theorem parseBibtex_citeKey_counterexample :
    (parseBibtex "@book\x7bunknown, author=\x7bJ_Doe\x7d, year=\x7b2020\x7d\x7d").citeKey =
      "j_doe-2020" ∧
    '_' ∈ "j_doe-2020".data ∧
    "@book\x7bunknown, author=\x7bJ_Doe\x7d, year=\x7b2020\x7d\x7d".data.head? = some '@' :=
  ⟨by rfl, by decide, by rfl⟩

/-- C3 amended: whenever parseBibtex takes its citeKey from the braces key
(the sanitized key differs from "unknown", so the lastname-year fallback
cannot fire), the citeKey is that key run through the slug sanitizer, and
it contains no underscore, no doubled hyphen, and no leading or trailing
hyphen, every character being a word character other than underscore or a
hyphen (uppercase letters of the key survive, so the alphabet is
[A-Za-z0-9-] rather than [a-z0-9-]; and the generated lastname-year
fallback path is not sanitized). -/
theorem parseBibtex_citeKey_sanitized (s : String) (k : List Char)
    (hk : citeKeyMatch (preprocessBibtex s.data.length s.data) = some k)
    (hu : sanitizeCiteKey k ≠ "unknown".data) :
    (parseBibtex s).citeKey = ⟨sanitizeCiteKey k⟩ ∧
    '_' ∉ sanitizeCiteKey k ∧
    ¬ List.IsInfix ['-', '-'] (sanitizeCiteKey k) ∧
    (sanitizeCiteKey k).head? ≠ some '-' ∧
    (sanitizeCiteKey k).getLast? ≠ some '-' ∧
    ∀ c ∈ sanitizeCiteKey k, (isWordCh c = true ∧ c ≠ '_') ∨ c = '-' := by
  have hproj : (parseBibtex s).citeKey =
      ⟨bibtexFinalKey (preprocessBibtex s.data.length s.data)⟩ := rfl
  have hfin : bibtexFinalKey (preprocessBibtex s.data.length s.data) = sanitizeCiteKey k := by
    unfold bibtexFinalKey bibtexKeyOf
    rw [hk]
    rw [if_neg hu]
  obtain ⟨hall, hu2, hinf, hhd, hlast⟩ := sanitizeCiteKey_slug k
  refine ⟨by rw [hproj, hfin], hu2, hinf, hhd, hlast, ?_⟩
  intro c hc
  have hg : goodCh c = true := List.all_eq_true.mp hall c hc
  unfold goodCh at hg
  rcases (by simpa using hg : (isWordCh c = true ∧ ¬ c = '_') ∨ c = '-') with h | h
  · exact Or.inl ⟨h.1, h.2⟩
  · exact Or.inr h

/-- Witness for the amended C3 at a concrete bibtex text. -/
theorem parseBibtex_citeKey_sanitized_witness :
    citeKeyMatch (preprocessBibtex
      "@book\x7bSmith_2020, title=\x7bT\x7d\x7d".data.length
      "@book\x7bSmith_2020, title=\x7bT\x7d\x7d".data) = some "Smith_2020".data ∧
    sanitizeCiteKey "Smith_2020".data ≠ "unknown".data ∧
    (parseBibtex "@book\x7bSmith_2020, title=\x7bT\x7d\x7d").citeKey = ⟨sanitizeCiteKey "Smith_2020".data⟩ :=
  ⟨by decide, by decide,
    (parseBibtex_citeKey_sanitized "@book\x7bSmith_2020, title=\x7bT\x7d\x7d"
      "Smith_2020".data (by decide) (by decide)).1⟩

/-- C7: extractCiteKey fails — with the "Could not extract cite key" error
modelled as the Except error branch — exactly when no @type-brace-key-comma
pattern is present in the input; on success it returns the key sanitized to
a hyphen slug.  (It is the only operation of this embedding whose result
type carries an error branch; every other function is total, mirroring the
propagation policy of the source.) -/
theorem extractCiteKey_error_iff :
    (∀ s : String, extractCiteKey s = Except.error "Could not extract cite key" ↔
      citeKeyMatch s.data = none) ∧
    (∀ (s : String) (k : List Char), citeKeyMatch s.data = some k →
      extractCiteKey s = Except.ok ⟨sanitizeCiteKey k⟩) := by
  constructor
  · intro s
    unfold extractCiteKey
    cases h : citeKeyMatch s.data with
    | none => simp
    | some k => simp
  · intro s k h
    unfold extractCiteKey
    rw [h]

/-- Witness for C7: a concrete success and a concrete failure. -/
theorem extractCiteKey_error_iff_witness :
    citeKeyMatch "@book\x7bsmith2020, title = \x7bTest\x7d\x7d".data = some "smith2020".data ∧
    extractCiteKey "@book\x7bsmith2020, title = \x7bTest\x7d\x7d" =
      Except.ok ⟨sanitizeCiteKey "smith2020".data⟩ ∧
    extractCiteKey "invalid content" = Except.error "Could not extract cite key" :=
  ⟨by decide,
    extractCiteKey_error_iff.2 "@book\x7bsmith2020, title = \x7bTest\x7d\x7d"
      "smith2020".data (by decide),
    (extractCiteKey_error_iff.1 "invalid content").mpr (by decide)⟩

/-! ## Page number extraction (src/utils/clipboard-parser.ts,
extractPageNumber) -/

/-- The result record of extractPageNumber. -/
structure PageResult where
  cleanedText : String
  page : Option String
  deriving Repr, DecidableEq

/-- The case-insensitive page letter. -/
def isPCh (c : Char) : Bool := c = 'p' || c = 'P'

/-- The candidates for the capture tail \.? ?\d+([–-]\d+)? after the page
letters, each being (captured text, rest); the with-range variant precedes
the rangeless one (the optional group is greedy but backtracks when the
trailing context fails). -/
def pageTailCands (r : List Char) : List (List Char × List Char) :=
  let dotPart : List Char × List Char :=
    match r with
    | '.' :: t => (['.'], t)
    | _ => ([], r)
  let spPart : List Char × List Char :=
    match dotPart.2 with
    | ' ' :: t => ([' '], t)
    | _ => ([], dotPart.2)
  match run1 isDigitCh spPart.2 with
  | none => []
  | some (ds, r3) =>
    match r3 with
    | d :: r4 =>
      if d = '–' || d = '-' then
        match run1 isDigitCh r4 with
        | some (ds2, r5) =>
          [(dotPart.1 ++ spPart.1 ++ ds ++ d :: ds2, r5),
           (dotPart.1 ++ spPart.1 ++ ds, r3)]
        | none => [(dotPart.1 ++ spPart.1 ++ ds, r3)]
      else [(dotPart.1 ++ spPart.1 ++ ds, r3)]
    | [] => [(dotPart.1 ++ spPart.1 ++ ds, r3)]

/-- The trailing [)\]]?\.?$ after the capture group. -/
def pageEndOk (r : List Char) : Bool :=
  let r1 := match r with
    | ')' :: t => t
    | ']' :: t => t
    | _ => r
  let r2 := match r1 with
    | '.' :: t => t
    | _ => r1
  r2.isEmpty

/-- The page-marker regex [([ ,]?(p{1,2}\.? ?\d+([–-]\d+)?)[)\]]?\.?$
(case-insensitive p) at the current position: an optional leading character
from the class [([ ,], one or two page letters (greedy), the digits with
optional dash or en-dash range, an optional closing bracket and period,
then the end of the input.  Returns the first capture group. -/
def matchPageAt (cs : List Char) : Option (List Char) :=
  let core : List Char → Option (List Char) := fun r =>
    match r with
    | p1 :: rest =>
      if isPCh p1 then
        let pCands : List (List Char × List Char) :=
          match rest with
          | p2 :: rest2 =>
            if isPCh p2 then [([p1, p2], rest2), ([p1], rest)] else [([p1], rest)]
          | [] => [([p1], rest)]
        firstSome (fun pc =>
          firstSome (fun tc =>
            if pageEndOk tc.2 then some (pc.1 ++ tc.1) else none)
            (pageTailCands pc.2)) pCands
      else none
    | [] => none
  match cs with
  | c :: r =>
    if c = '(' || c = '[' || c = ' ' || c = ',' then
      match core r with
      | some cap => some cap
      | none => core (c :: r)
    else core (c :: r)
  | [] => none

/-- The leftmost match of the page regex: the text before the match and the
captured page label (the matched text itself runs to the end of input). -/
def pageSearch : List Char → Option (List Char × List Char)
  | [] => none
  | c :: r =>
    match matchPageAt (c :: r) with
    | some cap => some ([], cap)
    | none =>
      match pageSearch r with
      | some (pre, cap) => some (c :: pre, cap)
      | none => none

/-- extractPageNumber of src/utils/clipboard-parser.ts. -/
def extractPageNumber (text : String) : PageResult :=
  match pageSearch text.data with
  | some (pre, cap) => { cleanedText := ⟨jsTrim pre⟩, page := some ⟨cap⟩ }
  | none => { cleanedText := ⟨jsTrim text.data⟩, page := none }

/-- C8: the round trip of the page extractor — on "Text (p. 42)" the page
is "p. 42" and the cleaned text "Text", whose concatenation with " (p. 42)"
reconstructs the original input exactly; and on every input in which the
trailing page-marker pattern finds no match, the page is null and the
cleaned text is the input unchanged except for trimming. -/
theorem extractPageNumber_round_trip :
    (extractPageNumber "Text (p. 42)").page = some "p. 42" ∧
    (extractPageNumber "Text (p. 42)").cleanedText = "Text" ∧
    (extractPageNumber "Text (p. 42)").cleanedText ++ " (p. 42)" = "Text (p. 42)" ∧
    (∀ s : String, pageSearch s.data = none →
      extractPageNumber s = { cleanedText := ⟨jsTrim s.data⟩, page := none }) := by
  refine ⟨by rfl, by rfl, by rfl, ?_⟩
  intro s h
  unfold extractPageNumber
  rw [h]

/-- Witness for C8 at a concrete input without a page marker. -/
theorem extractPageNumber_round_trip_witness :
    pageSearch "Just some regular text".data = none ∧
    extractPageNumber "Just some regular text" =
      { cleanedText := ⟨jsTrim "Just some regular text".data⟩, page := none } :=
  ⟨by decide,
    extractPageNumber_round_trip.2.2.2 "Just some regular text" (by decide)⟩

/-! ## MLA / APA / Chicago extractors (src/utils/clipboard-parser.ts)

All three begin with citation = text.trim().split('\n').join(' ').trim();
each heuristic regex is embedded as a dedicated matcher. -/

/-- String.prototype.split('\n') (literal separator). -/
def splitNl : List Char → List (List Char)
  | [] => [[]]
  | c :: r =>
    if c = '\n' then [] :: splitNl r
    else
      match splitNl r with
      | h :: t => (c :: h) :: t
      | [] => [[c]]

/-- Array.prototype.join(' '). -/
def joinSpace : List (List Char) → List Char
  | [] => []
  | [l] => l
  | l :: ls => l ++ ' ' :: joinSpace ls

/-- The normalized citation text shared by parseMLA, parseAPA and
parseChicago: trimmed input, newlines collapsed to single spaces,
trimmed again. -/
def citationOf (text : String) : List Char :=
  jsTrim (joinSpace (splitNl (jsTrim text.data)))

/-- \[[*_]([^\]]+)[*_]\]\(([^)]+)\) at the current position:
(title capture, url, rest).  The greedy [^\]]+ absorbs everything up to
the bracket, then backtracks one character for the closing [*_]. -/
def mdStarLinkAt (cs : List Char) : Option (List Char × List Char × List Char) :=
  match cs with
  | '[' :: d :: r =>
    if d = '*' || d = '_' then
      let seg := r.takeWhile (· ≠ ']')
      if seg.length ≥ 2 then
        match seg.getLast? with
        | some e =>
          if e = '*' || e = '_' then
            match r.dropWhile (· ≠ ']') with
            | ']' :: '(' :: r2 =>
              let url := r2.takeWhile (· ≠ ')')
              if url.isEmpty then none
              else
                match r2.dropWhile (· ≠ ')') with
                | ')' :: rest => some (seg.dropLast, url, rest)
                | _ => none
            | _ => none
          else none
        | none => none
      else none
    else none
  | _ => none

/-- The anchored author head of the MLA markdown branch:
^([^.]+(?:\.\s*[A-Z]\.)?). -/
def mlaAuthorHead (cs : List Char) : Option (List Char) :=
  let part1 := cs.takeWhile (· ≠ '.')
  if part1.isEmpty then none
  else
    some
      (match cs.dropWhile (· ≠ '.') with
       | '.' :: r2 =>
         (match r2.dropWhile isSpaceCh with
          | u :: '.' :: _ =>
            if isUpperCh u then part1 ++ '.' :: (r2.takeWhile isSpaceCh) ++ [u, '.']
            else part1
          | _ => part1)
       | _ => part1)

/-- .replace of the end-anchored ,?\s*$ with the empty string: the trailing
whitespace run and one comma before it removed. -/
def stripCommaSpacesEnd (cs : List Char) : List Char :=
  let r := trimRight cs
  match r.reverse with
  | ',' :: t => t.reverse
  | _ => r

/-- .replace of the end-anchored \.?\s*$: trailing whitespace and one
period before it removed. -/
def stripDotSpacesEnd (cs : List Char) : List Char :=
  let r := trimRight cs
  match r.reverse with
  | '.' :: t => t.reverse
  | _ => r

/-- substring(indexOf(close) + 1): the text after the first occurrence, the
whole text when absent (indexOf yields -1). -/
def afterFirstParen (cs : List Char) : List Char :=
  match cs.dropWhile (· ≠ ')') with
  | ')' :: t => t
  | _ => cs

/-- The capture of \s*(SEG+) inside a bounded segment u: the greedy \s*
leaves the part after the leading whitespace, backtracking one character
when the remainder would be empty. -/
def capAfterSpaces (u : List Char) : List Char :=
  let v := u.dropWhile isSpaceCh
  if v.isEmpty then
    match u.getLast? with
    | some c => [c]
    | none => []
  else v

/-- \.\s*([^,]+),\s*(\d{4}) at the current position: (publisher capture,
year). -/
def dotPubYearAt (cs : List Char) : Option (List Char × List Char) :=
  match cs with
  | '.' :: r =>
    let u := r.takeWhile (· ≠ ',')
    if u.isEmpty then none
    else
      match r.dropWhile (· ≠ ',') with
      | ',' :: r2 =>
        match fourDigitsAt (r2.dropWhile isSpaceCh) with
        | some (y, _) => some (capAfterSpaces u, y)
        | none => none
      | _ => none
  | _ => none

/-- The italic/quote-delimited title [_*"]([^_*"]+)[_*"] at the current
position: (capture, rest after the closing delimiter). -/
def titleDelimAt (cs : List Char) : Option (List Char × List Char) :=
  match cs with
  | d :: r =>
    if d = '_' || d = '*' || d = '"' then
      let seg := r.takeWhile (fun c => !(c = '_' || c = '*' || c = '"'))
      if seg.isEmpty then none
      else
        match r.dropWhile (fun c => !(c = '_' || c = '*' || c = '"')) with
        | _ :: rest => some (seg, rest)
        | [] => none
    else none
  | [] => none

/-- Leftmost delimited-title match: (text before the match, capture, text
after the match). -/
def titleSearch : List Char → Option (List Char × List Char × List Char)
  | [] => none
  | c :: r =>
    match titleDelimAt (c :: r) with
    | some (cap, rest) => some ([], cap, rest)
    | none =>
      match titleSearch r with
      | some (pre, cap, rest) => some (c :: pre, cap, rest)
      | none => none

/-- (\d{4})\.?$ at the current position. -/
def yearDotEndAt (cs : List Char) : Option (List Char) :=
  match fourDigitsAt cs with
  | some (y, rest) =>
    (match rest with
     | [] => some y
     | ['.'] => some y
     | _ => none)
  | none => none

/-- ,?\s*\d{4}\.?$ matching the whole remainder (the trailing year pattern
removed from the publisher segment). -/
def optCommaYearDotEndB (cs : List Char) : Bool :=
  let r := match cs with
    | ',' :: t => t
    | _ => cs
  match fourDigitsAt (r.dropWhile isSpaceCh) with
  | some (_, rest) =>
    (match rest with
     | [] => true
     | ['.'] => true
     | _ => false)
  | none => false

/-- .replace of an end-anchored pattern with the empty string: the leftmost
suffix satisfying p removed, the input returned unchanged when none does. -/
def removeSuffixMatch (p : List Char → Bool) : List Char → List Char
  | [] => []
  | c :: r => if p (c :: r) then [] else c :: removeSuffixMatch p r

/-- The MLA edition filter ^[^,]+ed\.,\s* (case-insensitive): since the
comma of the pattern is necessarily the first comma of the string, it fires
exactly when the text before that comma ends in "ed." with at least one
character before it. -/
def edStripMla (cs : List Char) : List Char :=
  let u := cs.takeWhile (· ≠ ',')
  match cs.dropWhile (· ≠ ',') with
  | ',' :: rest =>
    (match u.reverse with
     | '.' :: d :: e :: _ :: _ =>
       if toLowerCh d = 'd' && toLowerCh e = 'e' then rest.dropWhile isSpaceCh else cs
     | _ => cs)
  | _ => cs

/-- The lookahead (?=\s+[A-Z][A-Za-z\d]+(?!\.)): whitespace, an uppercase
letter, then either at least two alphanumerics, or exactly one not followed
by a period (the inner negative lookahead only rejects one-letter
abbreviations, by backtracking of the greedy run). -/
def lookaheadWordOk (cs : List Char) : Bool :=
  match run1 isSpaceCh cs with
  | some (_, u :: r2) =>
    isUpperCh u &&
    (let m := r2.takeWhile (fun c => c.isAlphanum)
     decide (m.length ≥ 2) ||
     (decide (m.length = 1) &&
      (match r2.drop 1 with
       | '.' :: _ => false
       | _ => true)))
  | _ => false

/-- The lazy author head ^(.+?)\.(?=\s+[A-Z][A-Za-z\d]+(?!\.)): the
shortest nonempty newline-free prefix followed by a period whose lookahead
succeeds; acc carries the reversed prefix scanned so far. -/
def lazyAuthorScan : List Char → List Char → Option (List Char)
  | _, [] => none
  | acc, c :: r =>
    if c = '.' && !acc.isEmpty && lookaheadWordOk r then some acc.reverse
    else if isNewlineCh c then none
    else lazyAuthorScan (c :: acc) r

/-- The simple author head ^([^.]+)\. -/
def simpleAuthorHead (cs : List Char) : Option (List Char) :=
  let p := cs.takeWhile (· ≠ '.')
  if p.isEmpty then none
  else
    match cs.dropWhile (· ≠ '.') with
    | '.' :: _ => some p
    | _ => none

/-- The quoted-title fallback \.\s*"?([^."]+)"?\. at the current
position. -/
def dotQuoteTitleAt (cs : List Char) : Option (List Char) :=
  match cs with
  | '.' :: r =>
    let r1 := r.dropWhile isSpaceCh
    let r2 := match r1 with
      | '"' :: t => t
      | _ => r1
    let seg := r2.takeWhile (fun c => !(c = '.' || c = '"'))
    if seg.isEmpty then none
    else
      match r2.dropWhile (fun c => !(c = '.' || c = '"')) with
      | '"' :: '.' :: _ => some seg
      | '.' :: _ => some seg
      | _ => none
  | _ => none

/-- (\d{4})[.,]?$ at the current position. -/
def yearPunctEndAt (cs : List Char) : Option (List Char) :=
  match fourDigitsAt cs with
  | some (y, rest) =>
    (match rest with
     | [] => some y
     | ['.'] => some y
     | [','] => some y
     | _ => none)
  | none => none

/-- The five heuristic fields shared by the non-BibTeX extractors. -/
structure ExtractedFields where
  author : Option (List Char)
  title : Option (List Char)
  url : Option (List Char)
  year : Option (List Char)
  publisher : Option (List Char)

/-- The MLA cite key author.split(',')[0].toLowerCase()
.replace(/\s+/g, '-') + '-' + year (no further sanitization). -/
def mlaCiteKey (author year : List Char) : List Char :=
  spacesToHyphens false (lowerList (author.takeWhile (· ≠ ','))) ++ '-' :: year

/-- The leading [.,\s] class of the publisher cleanups. -/
def isDotCommaSpace (c : Char) : Bool := c = '.' || c = ',' || isSpaceCh c

/-- The field extraction of parseMLA. -/
def mlaFields (citation : List Char) : ExtractedFields :=
  match scanFor mdStarLinkAt citation with
  | some (cap, url, _) =>
    let beforeLink := citation.takeWhile (· ≠ '[')
    let py := scanFor dotPubYearAt (afterFirstParen citation)
    { author := (mlaAuthorHead beforeLink).map (fun a => jsTrim (stripCommaSpacesEnd a))
      title := some (jsTrim cap)
      url := some url
      year := py.map (fun p => p.2)
      publisher := py.map (fun p => jsTrim p.1) }
  | none =>
    match titleSearch citation with
    | some (before, cap, after) =>
      let afterTitle := jsTrim after
      let pubRaw := jsTrim (removeSuffixMatch optCommaYearDotEndB
        (afterTitle.dropWhile isDotCommaSpace))
      { author := some (jsTrim (stripDotSpacesEnd before))
        title := some (jsTrim cap)
        url := none
        year := scanFor yearDotEndAt afterTitle
        publisher := some (jsTrim (edStripMla pubRaw)) }
    | none =>
      let authorM := match lazyAuthorScan [] citation with
        | some a => some a
        | none => simpleAuthorHead citation
      { author := authorM.map jsTrim
        title := (scanFor dotQuoteTitleAt citation).map jsTrim
        url := none
        year := match scanFor yearPunctEndAt citation with
          | some y => some y
          | none => scanFor (fun cs => (fourDigitsAt cs).map (fun p => p.1)) citation
        publisher := (scanFor dotPubYearAt citation).map (fun p => jsTrim p.1) }

/-- parseMLA of src/utils/clipboard-parser.ts. -/
def parseMLA (text : String) : ParsedCitation :=
  let citation := citationOf text
  let f := mlaFields citation
  { format := .mla
    citeKey := ⟨match f.author, f.year with
      | some a, some y => mlaCiteKey a y
      | _, _ => "unknown".data⟩
    author := f.author.map String.mk
    title := f.title.map String.mk
    cleanedTitle := (f.title.map cleanTitle).map String.mk
    year := f.year.map String.mk
    pages := none
    publisher := f.publisher.map String.mk
    url := f.url.map String.mk
    rawCitation := ⟨citation⟩
    isbn := none
    abstract := none
    keywords := none
    series := none }

/-- \((\d{4})\) at the current position. -/
def parenYearAt (cs : List Char) : Option (List Char) :=
  match cs with
  | '(' :: r =>
    (match fourDigitsAt r with
     | some (y, ')' :: _) => some y
     | _ => none)
  | _ => none

/-- .replace of the anchored /,$/: one trailing comma removed (before any
trimming). -/
def stripTrailComma (cs : List Char) : List Char :=
  match cs.reverse with
  | ',' :: t => t.reverse
  | _ => cs

/-- .replace of the anchored /\.$/: one trailing period removed. -/
def stripTrailDot (cs : List Char) : List Char :=
  match cs.reverse with
  | '.' :: t => t.reverse
  | _ => cs

/-- substring(lastIndexOf(close) + 1): text after the last ')', the whole
text when absent. -/
def afterLastParen (cs : List Char) : List Char :=
  if cs.any (· = ')') then (cs.reverse.takeWhile (· ≠ ')')).reverse
  else cs

/-- \.\s*([^.]+)\. at the current position (the APA markdown-branch
publisher). -/
def dotSegDotAt (cs : List Char) : Option (List Char) :=
  match cs with
  | '.' :: r =>
    let u := r.takeWhile (· ≠ '.')
    if u.isEmpty then none
    else
      match r.dropWhile (· ≠ '.') with
      | '.' :: _ => some (capAfterSpaces u)
      | _ => none
  | _ => none

/-- String.prototype.split on the regex \.\s+ (a period followed by
whitespace). -/
def splitDotSpace : Nat → List Char → List (List Char)
  | 0, cs => [cs]
  | _ + 1, [] => [[]]
  | fuel + 1, c :: r =>
    if c = '.' && (run1 isSpaceCh r).isSome then
      [] :: splitDotSpace fuel (r.dropWhile isSpaceCh)
    else
      match splitDotSpace fuel r with
      | h :: t => (c :: h) :: t
      | [] => [[c]]

/-- The first author segment author.split(/[&,]|and/)[0]: the text before
the first ampersand, comma or literal "and". -/
def firstAuthorSeg : List Char → List Char
  | [] => []
  | c :: r =>
    if c = '&' || c = ',' then []
    else
      match c, r with
      | 'a', 'n' :: 'd' :: _ => []
      | _, _ => c :: firstAuthorSeg r

/-- split(/\s+/).pop(): the final whitespace-separated token (empty when
the text is empty or ends in whitespace). -/
def lastToken (cs : List Char) : List Char :=
  (cs.reverse.takeWhile (fun c => !isSpaceCh c)).reverse

/-- The APA / Chicago cite key: last name of the first author, lowercased,
non-word characters stripped ("unknown" when that leaves nothing), then
-year. -/
def lastNameYearKey (author year : List Char) : List Char :=
  let fa := jsTrim (firstAuthorSeg author)
  let ln := (lowerList (lastToken fa)).filter isWordCh
  (if ln.isEmpty then "unknown".data else ln) ++ '-' :: year

/-- The author before the first parenthesis (APA): non-null exactly when a
parenthesis exists at an index greater than zero. -/
def apaAuthorOf (citation : List Char) : Option (List Char) :=
  if citation.any (· = '(') && !(citation.takeWhile (· ≠ '(')).isEmpty then
    some (jsTrim (stripTrailComma (citation.takeWhile (· ≠ '('))))
  else none

/-- substring(indexOf(close, indexOf(open)) + 1).trim(): the text after the
first ')' at or after the first '(' (APA afterYear). -/
def apaAfterYear (citation : List Char) : List Char :=
  if citation.any (· = '(') && !(citation.takeWhile (· ≠ '(')).isEmpty then
    match (citation.dropWhile (· ≠ '(')).dropWhile (· ≠ ')') with
    | ')' :: t => jsTrim t
    | _ => jsTrim citation
  else citation

/-- The leading [.,\s(] class of the APA publisher cleanup. -/
def isApaLeadCh (c : Char) : Bool := c = '.' || c = ',' || c = '(' || isSpaceCh c

/-- The field extraction of parseAPA. -/
def apaFields (citation : List Char) : ExtractedFields :=
  let yearM := scanFor parenYearAt citation
  let authorM := apaAuthorOf citation
  match scanFor mdStarLinkAt citation with
  | some (cap, url, _) =>
    { author := authorM
      title := some (jsTrim cap)
      url := some url
      year := yearM
      publisher := (scanFor dotSegDotAt (afterLastParen citation)).map jsTrim }
  | none =>
    let afterYear := apaAfterYear citation
    match titleSearch afterYear with
    | some (_, cap, after) =>
      let afterTitle := jsTrim after
      let pub :=
        if (match afterTitle.head? with
            | some c => isApaLeadCh c
            | none => false) && afterTitle.any (· = ')') then
          ((afterTitle.dropWhile (· ≠ ')')).drop 1).dropWhile isDotCommaSpace
        else afterTitle
      { author := authorM
        title := some (jsTrim cap)
        url := none
        year := yearM
        publisher := some (jsTrim (stripTrailDot pub)) }
    | none =>
      let ay2 := match afterYear with
        | '.' :: t => t.dropWhile isSpaceCh
        | _ => afterYear
      let parts := splitDotSpace ay2.length ay2
      { author := authorM
        title := (match parts with
          | h :: _ => some (jsTrim h)
          | [] => none)
        url := none
        year := yearM
        publisher := (match parts with
          | _ :: p2 :: _ => some (jsTrim (stripTrailDot p2))
          | _ => none) }

/-- parseAPA of src/utils/clipboard-parser.ts. -/
def parseAPA (text : String) : ParsedCitation :=
  let citation := citationOf text
  let f := apaFields citation
  { format := .apa
    citeKey := ⟨match f.author, f.year with
      | some a, some y => lastNameYearKey a y
      | _, _ => "unknown".data⟩
    author := f.author.map String.mk
    title := f.title.map String.mk
    cleanedTitle := (f.title.map cleanTitle).map String.mk
    year := f.year.map String.mk
    pages := none
    publisher := f.publisher.map String.mk
    url := f.url.map String.mk
    rawCitation := ⟨citation⟩
    isbn := none
    abstract := none
    keywords := none
    series := none }

/-- \bin\s+[_*]([^_*]+)[_*] at the current position (the word boundary is
checked by the caller). -/
def inBookAt (cs : List Char) : Option (List Char) :=
  match cs with
  | 'i' :: 'n' :: r =>
    (match run1 isSpaceCh r with
     | some (_, d :: r2) =>
       if d = '_' || d = '*' then
         let seg := r2.takeWhile (fun c => !(c = '_' || c = '*'))
         if seg.isEmpty then none
         else
           match r2.dropWhile (fun c => !(c = '_' || c = '*')) with
           | _ :: _ => some seg
           | [] => none
       else none
     | _ => none)
  | _ => none

/-- Leftmost \bin\s+[_*]...[_*] match, tracking the previous character for
the word boundary. -/
def inBookScan : Option Char → List Char → Option (List Char)
  | _, [] => none
  | prev, c :: r =>
    match (if (match prev with
               | none => true
               | some p => !isWordCh p) then inBookAt (c :: r) else none) with
    | some seg => some seg
    | none => inBookScan (some c) r

/-- The Chicago title cleanup: strip the leading run of [_*“"‘'] and the
trailing run of [_*”"’',]. -/
def stripQuoteMarks (cs : List Char) : List Char :=
  let l := cs.dropWhile (fun c =>
    c = '_' || c = '*' || c = '“' || c = '"' || c = '‘' || c = '\'')
  (l.reverse.dropWhile (fun c =>
    c = '_' || c = '*' || c = '”' || c = '"' || c = '’' || c = '\'' || c = ',')).reverse

/-- ,\s*(\d{4})\) at the current position. -/
def commaYearParenAt (cs : List Char) : Option (List Char) :=
  match cs with
  | ',' :: r =>
    (match fourDigitsAt (r.dropWhile isSpaceCh) with
     | some (y, ')' :: _) => some y
     | _ => none)
  | _ => none

/-- ,\s*(\d{4})\.?\s*$ at the current position. -/
def commaYearEndCapAt (cs : List Char) : Option (List Char) :=
  match cs with
  | ',' :: r =>
    (match fourDigitsAt (r.dropWhile isSpaceCh) with
     | some (y, rest) =>
       (match rest with
        | '.' :: r2 => if (r2.dropWhile isSpaceCh).isEmpty then some y else none
        | r2 => if (r2.dropWhile isSpaceCh).isEmpty then some y else none)
     | none => none)
  | _ => none

/-- :\s*([^,)]+),\s*\d{4} at the current position (the Chicago
markdown-branch publisher). -/
def colonPubYearAt (cs : List Char) : Option (List Char) :=
  match cs with
  | ':' :: r =>
    let u := r.takeWhile (fun c => !(c = ',' || c = ')'))
    if u.isEmpty then none
    else
      match r.dropWhile (fun c => !(c = ',' || c = ')')) with
      | ',' :: r2 =>
        (match fourDigitsAt (r2.dropWhile isSpaceCh) with
         | some _ => some (capAfterSpaces u)
         | none => none)
      | _ => none
  | _ => none

/-- ,\s*(\d{4})\.?$ at the current position. -/
def commaYearDotEndAt (cs : List Char) : Option (List Char) :=
  match cs with
  | ',' :: r =>
    (match fourDigitsAt (r.dropWhile isSpaceCh) with
     | some (y, rest) =>
       (match rest with
        | [] => some y
        | ['.'] => some y
        | _ => none)
     | none => none)
  | _ => none

def commaYearDotEndB (cs : List Char) : Bool := (commaYearDotEndAt cs).isSome

/-- ,\s*(\d{4})[.,]?$ at the current position. -/
def commaYearPunctEndAt (cs : List Char) : Option (List Char) :=
  match cs with
  | ',' :: r =>
    (match fourDigitsAt (r.dropWhile isSpaceCh) with
     | some (y, rest) =>
       (match rest with
        | [] => some y
        | ['.'] => some y
        | [','] => some y
        | _ => none)
     | none => none)
  | _ => none

/-- ,?\s*\d{4}[.,]?$ matching the whole remainder. -/
def optCommaYearPunctEndB (cs : List Char) : Bool :=
  let r := match cs with
    | ',' :: t => t
    | _ => cs
  match fourDigitsAt (r.dropWhile isSpaceCh) with
  | some (_, rest) =>
    (match rest with
     | [] => true
     | ['.'] => true
     | [','] => true
     | _ => false)
  | none => false

/-- split(':') last element. -/
def lastColonSeg (cs : List Char) : List Char :=
  (cs.reverse.takeWhile (· ≠ ':')).reverse

/-- The Chicago edition filter ^[^,]*ed\.\s* (case-insensitive): the greedy
comma-free head selects the rightmost "ed." occurrence before the first
comma; returns the rest after it and the following whitespace. -/
def edChicagoScan : List Char → Option (List Char)
  | [] => none
  | c :: r =>
    if c = ',' then none
    else
      let here : Option (List Char) :=
        match c :: r with
        | e :: d :: '.' :: rest =>
          if toLowerCh e = 'e' && toLowerCh d = 'd' then some (rest.dropWhile isSpaceCh)
          else none
        | _ => none
      match edChicagoScan r with
      | some rest => some rest
      | none => here

/-- afterAuthor.split(/\.\s+|(?=Place:)/)[0]: the text up to the first
period-plus-whitespace separator or zero-width "Place:" lookahead (the
latter only at a positive index, as a zero-length match at the start
produces no leading empty part). -/
def titleUpTo : Bool → Nat → List Char → List Char
  | _, 0, cs => cs
  | _, _ + 1, [] => []
  | atStart, fuel + 1, c :: r =>
    if c = '.' && (run1 isSpaceCh r).isSome then []
    else if !atStart && "Place:".data.isPrefixOf (c :: r) then []
    else c :: titleUpTo false fuel r

/-- The field extraction of parseChicago. -/
def chicagoFields (citation : List Char) : ExtractedFields :=
  match scanFor mdAnyLinkAt citation with
  | some (lab, url, _) =>
    let title := match inBookScan none citation with
      | some seg => jsTrim seg
      | none => jsTrim (stripQuoteMarks lab)
    let yearM := match scanFor commaYearParenAt citation with
      | some y => some y
      | none => scanFor commaYearEndCapAt citation
    { author := some (jsTrim (stripCommaSpacesEnd (citation.takeWhile (· ≠ '['))))
      title := some title
      url := some url
      year := yearM
      publisher := (scanFor colonPubYearAt citation).map jsTrim }
  | none =>
    match titleSearch citation with
    | some (before, cap, after) =>
      let afterTitle := jsTrim after
      let pub0 :=
        if afterTitle.any (· = ':') then
          removeSuffixMatch commaYearDotEndB (jsTrim (lastColonSeg afterTitle))
        else
          removeSuffixMatch optCommaYearDotEndB (afterTitle.dropWhile isDotCommaSpace)
      let pub1 := jsTrim pub0
      let pub2 :=
        if pub1.isEmpty then pub1
        else
          let e := match edChicagoScan pub1 with
            | some rest => rest
            | none => pub1
          jsTrim (e.dropWhile isDotCommaSpace)
      { author := some (jsTrim (stripDotSpacesEnd before))
        title := some (jsTrim cap)
        url := none
        year := scanFor commaYearDotEndAt afterTitle
        publisher := some pub2 }
    | none =>
      let authorM := match lazyAuthorScan [] citation with
        | some a => some a
        | none => simpleAuthorHead citation
      let author := match authorM with
        | some a => jsTrim a
        | none =>
          jsTrim (match splitDotSpace citation.length citation with
            | h :: _ => h
            | [] => [])
      let afterAuthor := match authorM with
        | some a => jsTrim (citation.drop (a.length + 1))
        | none => jsTrim (citation.drop (author.length + 1))
      let title := jsTrim (titleUpTo true afterAuthor.length afterAuthor)
      let yearM := match scanFor commaYearPunctEndAt citation with
        | some y => some y
        | none => scanFor (fun cs => (fourDigitsAt cs).map (fun p => p.1)) citation
      let pubM :=
        if citation.any (· = ':') then
          some (jsTrim (removeSuffixMatch optCommaYearPunctEndB (lastColonSeg citation)))
        else none
      { author := some author
        title := some title
        url := none
        year := yearM
        publisher := pubM }

/-- parseChicago of src/utils/clipboard-parser.ts. -/
def parseChicago (text : String) : ParsedCitation :=
  let citation := citationOf text
  let f := chicagoFields citation
  { format := .chicago
    citeKey := ⟨match f.author, f.year with
      | some a, some y => lastNameYearKey a y
      | _, _ => "unknown".data⟩
    author := f.author.map String.mk
    title := f.title.map String.mk
    cleanedTitle := (f.title.map cleanTitle).map String.mk
    year := f.year.map String.mk
    pages := none
    publisher := f.publisher.map String.mk
    url := f.url.map String.mk
    rawCitation := ⟨citation⟩
    isbn := none
    abstract := none
    keywords := none
    series := none }

/-! ### Lemmas: the shared rawCitation normalization -/

lemma splitNl_no_newline {l : List Char} (h : '\n' ∉ l) : splitNl l = [l] := by
  induction l with
  | nil => rfl
  | cons c r ih =>
    have hc : c ≠ '\n' := fun hEq => h (hEq ▸ List.mem_cons_self c r)
    have hr : '\n' ∉ r := fun hm => h (List.mem_cons_of_mem c hm)
    unfold splitNl
    rw [if_neg hc, ih hr]

lemma trimLeft_sublist (l : List Char) : List.Sublist (trimLeft l) l :=
  List.dropWhile_sublist _

lemma trimRight_sublist (l : List Char) : List.Sublist (trimRight l) l := by
  unfold trimRight
  have h : List.Sublist (trimLeft l.reverse) l.reverse := trimLeft_sublist l.reverse
  have h2 := h.reverse
  rwa [List.reverse_reverse] at h2

lemma jsTrim_sublist (l : List Char) : List.Sublist (jsTrim l) l :=
  (trimRight_sublist (trimLeft l)).trans (trimLeft_sublist l)

lemma trimLeft_idem (l : List Char) : trimLeft (trimLeft l) = trimLeft l := by
  induction l with
  | nil => rfl
  | cons c r ih =>
    unfold trimLeft at ih ⊢
    rw [List.dropWhile_cons]
    cases hc : isSpaceCh c with
    | true =>
      rw [if_pos rfl]
      exact ih
    | false =>
      rw [if_neg (by simp), List.dropWhile_cons, hc, if_neg (by simp)]

lemma trimRight_idem (l : List Char) : trimRight (trimRight l) = trimRight l := by
  unfold trimRight
  rw [List.reverse_reverse, trimLeft_idem]

lemma trimRight_prefix (l : List Char) : List.IsPrefix (trimRight l) l := by
  have h : List.IsSuffix (trimLeft l.reverse) l.reverse := List.dropWhile_suffix _
  have h2 := List.reverse_prefix.mpr h
  rwa [List.reverse_reverse] at h2

lemma trimLeft_head {l : List Char} (h : trimLeft l = l) {c : Char} {t : List Char}
    (hl : l = c :: t) : isSpaceCh c = false := by
  subst hl
  cases hc : isSpaceCh c with
  | true =>
    have h2 : trimLeft (c :: t) = trimLeft t := by
      unfold trimLeft
      rw [List.dropWhile_cons, hc, if_pos rfl]
    rw [h2] at h
    have hlen := congrArg List.length h
    have hle := (trimLeft_sublist t).length_le
    simp only [List.length_cons] at hlen
    omega
  | false => rfl

lemma trimLeft_trimRight {l : List Char} (h : trimLeft l = l) :
    trimLeft (trimRight l) = trimRight l := by
  cases hl : trimRight l with
  | nil => rfl
  | cons c t =>
    have hpre : List.IsPrefix (c :: t) l := hl ▸ trimRight_prefix l
    obtain ⟨rest, hrest⟩ := hpre
    have hc : isSpaceCh c = false := trimLeft_head h (by rw [← hrest]; rfl)
    unfold trimLeft List.dropWhile
    rw [hc]

lemma jsTrim_idem (l : List Char) : jsTrim (jsTrim l) = jsTrim l := by
  unfold jsTrim
  rw [trimLeft_trimRight (trimLeft_idem l), trimRight_idem]

lemma citationOf_no_newline (s : String) (h : '\n' ∉ s.data) :
    citationOf s = jsTrim s.data := by
  unfold citationOf
  have htr : '\n' ∉ jsTrim s.data := fun hm => h ((jsTrim_sublist s.data).subset hm)
  rw [splitNl_no_newline htr]
  show jsTrim (jsTrim s.data) = jsTrim s.data
  exact jsTrim_idem s.data

lemma bibtexTitleUrlRaw_no_url {bib0 : List Char}
    (hurl : findBraceField "url".data bib0 = none) :
    (bibtexTitleUrlRaw bib0).2.2 = bib0 := by
  unfold bibtexTitleUrlRaw
  cases hrt : bibtexRawTitle bib0 with
  | none => rfl
  | some t0 =>
    cases hsc : scanFor mdAnyLinkAt t0 with
    | none => simp only [hsc, hurl]
    | some v =>
      obtain ⟨a, u, r⟩ := v
      simp only [hsc]

/-! ### Claims about rawCitation -/

/-- C9 counterexample: parseMLA on the two-line input "a\nb" records the
rawCitation "a b" (newline collapsed to a space), which is not a substring
of the input — so rawCitation is not the exact parsed substring. -/
theorem rawCitation_counterexample :
    (parseMLA "a\nb").rawCitation = "a b" ∧
    ¬ List.IsInfix "a b".data "a\nb".data :=
  ⟨by rfl, by decide⟩

/-- C9 amended: rawCitation is the parsed text in normalized form, not the
exact input substring — for parseMLA, parseAPA and parseChicago it is the
trimmed input with every newline collapsed to a single space (hence equal
to the exact trimmed input whenever the input has no newline, as proved
here), and for parseBibtex it is the input after markdown-link field
preprocessing and optional title-field hyperlink rewriting (hence equal to
the exact input when the preprocessing finds nothing and no url field
exists, as proved here). -/
theorem rawCitation_normalized (s : String) (h : '\n' ∉ s.data)
    (hpre : preprocessBibtex s.data.length s.data = s.data)
    (hurl : findBraceField "url".data s.data = none) :
    (parseMLA s).rawCitation = jsTrimS s ∧
    (parseAPA s).rawCitation = jsTrimS s ∧
    (parseChicago s).rawCitation = jsTrimS s ∧
    (parseBibtex s).rawCitation = s := by
  have hcit : citationOf s = jsTrim s.data := citationOf_no_newline s h
  have hm : (parseMLA s).rawCitation = ⟨citationOf s⟩ := rfl
  have ha : (parseAPA s).rawCitation = ⟨citationOf s⟩ := rfl
  have hc : (parseChicago s).rawCitation = ⟨citationOf s⟩ := rfl
  have hb : (parseBibtex s).rawCitation =
      ⟨(bibtexTitleUrlRaw (preprocessBibtex s.data.length s.data)).2.2⟩ := rfl
  refine ⟨?_, ?_, ?_, ?_⟩
  · rw [hm, hcit]; rfl
  · rw [ha, hcit]; rfl
  · rw [hc, hcit]; rfl
  · rw [hb, hpre, bibtexTitleUrlRaw_no_url hurl]

/-- Witness for the amended C9 at a concrete single-line input. -/
theorem rawCitation_normalized_witness :
    ('\n' ∉ "Doe, Jane. Title. Pub, 2020.".data) ∧
    (parseMLA "Doe, Jane. Title. Pub, 2020.").rawCitation =
      jsTrimS "Doe, Jane. Title. Pub, 2020." :=
  ⟨by decide,
    (rawCitation_normalized "Doe, Jane. Title. Pub, 2020." (by decide)
      (by decide) (by decide)).1⟩

/-! ## Clipboard splitter / orchestrator (src/utils/clipboard-parser.ts,
parseLogosClipboard) -/

/-- ParsedClipboard of src/utils/clipboard-parser.ts. -/
structure ParsedClipboard where
  mainText : String
  citation : Option ParsedCitation
  page : Option String
  reflyLink : Option String
  deriving Repr, DecidableEq

/-- Case-sensitive literal at the head, returning the rest. -/
def stripLit : List Char → List Char → Option (List Char)
  | [], cs => some cs
  | _ :: _, [] => none
  | n :: ns, c :: cs => if c = n then stripLit ns cs else none

/-- The resource-link regex https?:\/\/ref\.ly\/[^\s)}]+ at the current
position, returning the matched text. -/
def reflyAt (cs : List Char) : Option (List Char) :=
  match stripLit "http".data cs with
  | none => none
  | some r =>
    let sPart : List Char × List Char :=
      match r with
      | 's' :: t => (['s'], t)
      | _ => ([], r)
    match stripLit "://ref.ly/".data sPart.2 with
    | none => none
    | some r2 =>
      let seg := r2.takeWhile (fun c => !(isSpaceCh c || c = ')' || c = '}'))
      if seg.isEmpty then none
      else some ("http".data ++ sPart.1 ++ "://ref.ly/".data ++ seg)

/-- .replace of the trailing [\\.,;!]+$ run on the extracted link. -/
def stripReflyPunct (cs : List Char) : List Char :=
  (cs.reverse.dropWhile (fun c =>
    c = '\\' || c = '.' || c = ',' || c = ';' || c = '!')).reverse

/-- Does the trimmed clipboard start with @ (the bibtex-branch guard). -/
def startsWithAt (l : List Char) : Bool :=
  match l with
  | '@' :: _ => true
  | _ => false

/-- String.prototype.split on /\s+(?=@[\w]+{)/: the separator is a maximal
whitespace run whose end is immediately followed by an @-entry opener. -/
def splitAtBibtex : Nat → List Char → List (List Char)
  | 0, cs => [cs]
  | _ + 1, [] => [[]]
  | fuel + 1, c :: r =>
    if isSpaceCh c && atWordBrace ((c :: r).dropWhile isSpaceCh) then
      [] :: splitAtBibtex fuel ((c :: r).dropWhile isSpaceCh)
    else
      match splitAtBibtex fuel r with
      | h :: t => (c :: h) :: t
      | [] => [[c]]

/-- String.prototype.split on /\r?\n/. -/
def splitLinesCRLF : List Char → List (List Char)
  | [] => [[]]
  | '\r' :: '\n' :: r => [] :: splitLinesCRLF r
  | '\n' :: r => [] :: splitLinesCRLF r
  | c :: r =>
    match splitLinesCRLF r with
    | h :: t => (c :: h) :: t
    | [] => [[c]]

/-- Array.prototype.join('\n'). -/
def joinNl : List (List Char) → List Char
  | [] => []
  | [l] => l
  | l :: ls => l ++ '\n' :: joinNl ls

/-- The per-format citation-start heuristic applied to a trimmed line. -/
def lineLooksLikeCitation (fmt : CitationFormat) (l : List Char) : Bool :=
  match fmt with
  | .apa => anyPos (fun cs => (parenYearAt cs).isSome) l
  | .mla =>
    anyPos (fun cs => (authorHeadAt cs).isSome) l &&
    (l.any (· = '.') || l.any (· = '_') || l.any (· = '*'))
  | .chicago =>
    anyPos (fun cs => (authorHeadAt cs).isSome) l &&
    (l.any (· = '.') || l.any (· = '_') || l.any (· = '*'))
  | _ => false

/-- The bottom-up scan for the citation start: lines are processed from the
last upward; a blank or non-matching line below any found citation line
stops the scan, a matching line records its index and the scan continues
upward (multi-line citations). -/
def citationStartLoop (fmt : CitationFormat) : List (Nat × List Char) → Option Nat → Option Nat
  | [], acc => acc
  | (i, line) :: rest, acc =>
    let t := jsTrim line
    if t.isEmpty then
      match acc with
      | some _ => acc
      | none => citationStartLoop fmt rest none
    else if lineLooksLikeCitation fmt t then citationStartLoop fmt rest (some i)
    else
      match acc with
      | some _ => acc
      | none => citationStartLoop fmt rest none

/-- One match of the case-insensitive \s*\(?Resource Link:\s*LINK\)?
pattern at the current position, returning the rest after it. -/
def resourceLinkAt (link : List Char) (cs : List Char) : Option (List Char) :=
  let r0 := cs.dropWhile isSpaceCh
  let r1 := match r0 with
    | '(' :: t => t
    | _ => r0
  match stripCI "resource link:".data r1 with
  | none => none
  | some r2 =>
    match stripCI link (r2.dropWhile isSpaceCh) with
    | none => none
    | some r3 =>
      some (match r3 with
        | ')' :: t => t
        | _ => r3)

/-- The single (non-global) removal of the Resource Link wrapper. -/
def removeResourceLink (link : List Char) : Nat → List Char → List Char
  | 0, cs => cs
  | _ + 1, [] => []
  | fuel + 1, c :: r =>
    match resourceLinkAt link (c :: r) with
    | some rest => rest
    | none => c :: removeResourceLink link fuel r

/-- String.prototype.replace with a plain string: the first literal
occurrence removed. -/
def removeFirstLit (pat : List Char) : Nat → List Char → List Char
  | 0, cs => cs
  | _ + 1, [] => []
  | fuel + 1, c :: r =>
    match stripLit pat (c :: r) with
    | some rest => rest
    | none => c :: removeFirstLit pat fuel r

/-- The text / citation split of parseLogosClipboard (step 3). -/
def splitTextCitation (format : CitationFormat) (trimmed : List Char) :
    List Char × List Char :=
  if format = CitationFormat.bibtex then
    match splitAtBibtex trimmed.length trimmed with
    | p0 :: p1 :: _ => (jsTrim p0, jsTrim p1)
    | _ => if startsWithAt trimmed then ([], trimmed) else (trimmed, [])
  else
    let lines := splitLinesCRLF trimmed
    match citationStartLoop format lines.enum.reverse none with
    | some i =>
      if i > 0 then (jsTrim (joinNl (lines.take i)), jsTrim (joinNl (lines.drop i)))
      else ([], trimmed)
    | none => ([], trimmed)

/-- parseLogosClipboard of src/utils/clipboard-parser.ts. -/
def parseLogosClipboard (clipboard : String) (preferredFormat : CitationFormat) :
    ParsedClipboard :=
  let trimmed := jsTrim clipboard.data
  let reflyLink := (scanFor reflyAt trimmed).map stripReflyPunct
  let format := if preferredFormat = CitationFormat.auto then
    detectCitationFormat ⟨trimmed⟩ else preferredFormat
  let mc := splitTextCitation format trimmed
  let mainText1 :=
    match reflyLink with
    | some link =>
      if mc.1.isEmpty then mc.1
      else
        let m2 := removeResourceLink link mc.1.length mc.1
        jsTrim (removeFirstLit link m2.length m2)
    | none => mc.1
  let pr : List Char × Option String :=
    if mc.2.isEmpty then (mc.2, none)
    else
      let er := extractPageNumber ⟨mc.2⟩
      (er.cleanedText.data, er.page)
  let citation : Option ParsedCitation :=
    if pr.1.isEmpty then none
    else
      some (match format with
        | .mla => parseMLA ⟨pr.1⟩
        | .apa => parseAPA ⟨pr.1⟩
        | .chicago => parseChicago ⟨pr.1⟩
        | _ => parseBibtex ⟨pr.1⟩)
  { mainText := ⟨jsTrim mainText1⟩
    citation := citation
    page :=
      match pr.2 with
      | some p => some p
      | none =>
        match citation with
        | some c => c.pages
        | none => none
    reflyLink := reflyLink.map String.mk }

lemma startsWithAt_false {l : List Char} (h : l.head? ≠ some '@') :
    startsWithAt l = false := by
  cases l with
  | nil => rfl
  | cons c t =>
    by_cases hc : c = '@'
    · subst hc
      exact absurd rfl h
    · unfold startsWithAt
      split
      · next heq =>
        injection heq with h1 _
        exact absurd h1 hc
      · rfl

/-! ### Claims about the orchestrator -/

/-- C6: the BibTeX clipboard scenario — the quote line becomes mainText,
the @book entry parses with citeKey doe2021, and the page is null. -/
theorem parseLogosClipboard_bibtex_scenario :
    (parseLogosClipboard
      "Quote.\n@book\x7bdoe2021,\n author=\x7bJane Doe\x7d,\n title=\x7bBiblical Studies\x7d,\n\x7d"
      CitationFormat.auto).mainText = "Quote." ∧
    ((parseLogosClipboard
      "Quote.\n@book\x7bdoe2021,\n author=\x7bJane Doe\x7d,\n title=\x7bBiblical Studies\x7d,\n\x7d"
      CitationFormat.auto).citation).map ParsedCitation.citeKey = some "doe2021" ∧
    (parseLogosClipboard
      "Quote.\n@book\x7bdoe2021,\n author=\x7bJane Doe\x7d,\n title=\x7bBiblical Studies\x7d,\n\x7d"
      CitationFormat.auto).page = none :=
  ⟨by rfl, by rfl, by rfl⟩

/-- C4 counterexample: with the forced preferredFormat apa and the input
"just plain text" — in which no recognizable citation is present (every
detector pattern fails, so auto-detection would say bibtex) — the result
has a non-null citation record (the APA extractor output with null fields
and citeKey "unknown") and an empty mainText instead of the full trimmed
input. -/
theorem parseLogosClipboard_forced_format_counterexample :
    (parseLogosClipboard "just plain text" CitationFormat.apa).citation =
      some (parseAPA "just plain text") ∧
    (parseLogosClipboard "just plain text" CitationFormat.apa).citation ≠ none ∧
    (parseLogosClipboard "just plain text" CitationFormat.apa).mainText = "" ∧
    jsTrimS "just plain text" = "just plain text" ∧
    detectCitationFormat "just plain text" = CitationFormat.bibtex ∧
    ("" : String) ≠ "just plain text" := by
  refine ⟨by rfl, ?_, by rfl, by rfl, by rfl, by decide⟩
  have h : (parseLogosClipboard "just plain text" CitationFormat.apa).citation =
      some (parseAPA "just plain text") := by rfl
  rw [h]
  exact Option.some_ne_none _

/-- C4 amended: parseLogosClipboard is total (a Lean function), and with
preferredFormat auto, whenever the detector resolves bibtex, there is no
whitespace-anchored @-entry split point, the trimmed input does not start
with @, and no ref.ly resource link is present, the result is exactly
citation null with mainText the full trimmed input (and no page, no link).
Under a forced mla/apa/chicago format the program can instead return a
non-null citation record built from non-citation text together with an empty
mainText (see the counterexample), so the null-citation guarantee holds only
on this bibtex-format path. -/
theorem parseLogosClipboard_no_citation (s : String)
    (hfmt : detectCitationFormat ⟨jsTrim s.data⟩ = CitationFormat.bibtex)
    (hsplit : splitAtBibtex (jsTrim s.data).length (jsTrim s.data) = [jsTrim s.data])
    (hat : (jsTrim s.data).head? ≠ some '@')
    (hrefly : scanFor reflyAt (jsTrim s.data) = none) :
    parseLogosClipboard s CitationFormat.auto =
      { mainText := ⟨jsTrim s.data⟩, citation := none, page := none, reflyLink := none } := by
  unfold parseLogosClipboard splitTextCitation
  simp [hrefly, hfmt, hsplit, startsWithAt_false hat, jsTrim_idem]

/-- Witness for the amended C4 at a concrete plain-text input. -/
theorem parseLogosClipboard_no_citation_witness :
    detectCitationFormat ⟨jsTrim "hello there".data⟩ = CitationFormat.bibtex ∧
    parseLogosClipboard "hello there" CitationFormat.auto =
      { mainText := ⟨jsTrim "hello there".data⟩, citation := none, page := none,
        reflyLink := none } :=
  ⟨by rfl,
    parseLogosClipboard_no_citation "hello there" (by rfl) (by decide)
      (by decide) (by decide)⟩

end CitRef
